import Mathlib

/-
Verification development for the AI-Trader position ledger, market
data access layer, orchestrator resume logic, runner registry and the
daily market-journal merge.  Python functions from src/tools, src/main.py,
src/api/services/agent_runner.py and src/data/A_stock/merge_jsonl.py are
shallowly embedded as executable Lean definitions; timestamps stay the
strings the source compares, numeric prices and quantities are embedded
as integers (the claims under study are about selection, ordering and
control flow, not float rounding), and Python dicts are embedded as
association lists with replace-or-append insertion, which preserves the
keys and the key-wise values the source observes.
-/

namespace AITrader

/-! Python compares timestamp strings by code points; model that with the
lexicographic order on the underlying character lists. -/

/-- Boolean form of the Python string comparison a < b (code-point
lexicographic order). -/
def strLt (s t : String) : Bool := decide (s.data < t.data)

/-- Boolean form of the Python string comparison a <= b. -/
def strLe (s t : String) : Bool := !(strLt t s)

/-- Membership test for a character, modelling the Python test c in s. -/
def hasChar (s : String) (c : Char) : Bool := s.data.contains c

/-! Dates and times.  The source manipulates datetime objects obtained via
strptime and produces strings via strftime; we embed civil dates with the
standard days-from-civil bijection (all arithmetic happens at years
around 2025, well inside the algorithm domain). -/

/-- Civil calendar date. -/
structure Date where
  y : Int
  m : Int
  d : Int
deriving DecidableEq

/-- Time of day with seconds. -/
structure TimeOfDay where
  hh : Int
  mm : Int
  ss : Int
deriving DecidableEq

/-- Date plus time of day, the value of a parsed datetime string. -/
structure DateTime where
  date : Date
  time : TimeOfDay
deriving DecidableEq

/-- Day count since 1970-01-01 of a civil date (Gregorian calendar). -/
def daysFromCivil (dt : Date) : Int :=
  let y2 : Int := if dt.m ≤ 2 then dt.y - 1 else dt.y
  let era : Int := y2 / 400
  let yoe : Int := y2 - era * 400
  let mp  : Int := if dt.m > 2 then dt.m - 3 else dt.m + 9
  let doy : Int := (153 * mp + 2) / 5 + dt.d - 1
  let doe : Int := yoe * 365 + yoe / 4 - yoe / 100 + doy
  era * 146097 + doe - 719468

/-- Civil date of a day count since 1970-01-01. -/
def civilFromDays (z0 : Int) : Date :=
  let z   : Int := z0 + 719468
  let era : Int := z / 146097
  let doe : Int := z - era * 146097
  let yoe : Int := (doe - doe / 1460 + doe / 36524 - doe / 146096) / 365
  let y   : Int := yoe + era * 400
  let doy : Int := doe - (365 * yoe + yoe / 4 - yoe / 100)
  let mp  : Int := (5 * doy + 2) / 153
  let d   : Int := doy - (153 * mp + 2) / 5 + 1
  let m   : Int := if mp < 10 then mp + 3 else mp - 9
  ⟨if m ≤ 2 then y + 1 else y, m, d⟩

/-- Weekday of a day count, with Monday = 0 .. Sunday = 6 exactly as the
Python datetime.weekday method reports it. -/
def weekdayZ (z : Int) : Int := (z + 3) % 7

/-- Weekday of a civil date (Monday = 0 .. Sunday = 6). -/
def Date.weekday (dt : Date) : Int := weekdayZ (daysFromCivil dt)

/-- Shift a civil date by a signed number of days. -/
def addDays (dt : Date) (n : Int) : Date := civilFromDays (daysFromCivil dt + n)

/-- Fuelled form of the Python loop: while day.weekday() >= 5, step one day
back.  The loop needs at most two iterations, so fuel 7 is exact. -/
def skipBackWeekend : Nat → Int → Int
  | 0, z => z
  | n + 1, z => if weekdayZ z ≥ 5 then skipBackWeekend n (z - 1) else z

/-- Fuelled form of the Python loop: while day.weekday() >= 5, step one day
forward. -/
def skipFwdWeekend : Nat → Int → Int
  | 0, z => z
  | n + 1, z => if weekdayZ z ≥ 5 then skipFwdWeekend n (z + 1) else z

/-- Previous calendar day, then skip backward over Saturday and Sunday:
the body of the date-arithmetic fallbacks in get_yesterday_date_jsonl. -/
def prevWeekdayDate (dt : Date) : Date :=
  civilFromDays (skipBackWeekend 7 (daysFromCivil dt - 1))

/-- Next calendar day, then skip forward over Saturday and Sunday: the
day-rollover of get_next_hourly_timestamp. -/
def nextWeekdayDate (dt : Date) : Date :=
  civilFromDays (skipFwdWeekend 7 (daysFromCivil dt + 1))

/-! Parsing, mirroring strptime with the two formats the source uses. -/

/-- Split a character list at every occurrence of a separator. -/
def splitOnChar (sep : Char) : List Char → List (List Char)
  | [] => [[]]
  | c :: cs =>
    let rest := splitOnChar sep cs
    if c = sep then [] :: rest
    else
      match rest with
      | [] => [[c]]
      | r :: rs => (c :: r) :: rs

/-- Numeric value of a nonempty all-digit character list, none otherwise
(strptime rejects empty or non-digit numeric fields). -/
def charsToNat? (cs : List Char) : Option Nat :=
  if cs ≠ [] ∧ cs.all (fun c => decide ('0' ≤ c) && decide (c ≤ '9')) then
    some (cs.foldl (fun acc c => acc * 10 + (c.toNat - 48)) 0)
  else none

/-- Whether a year is a Gregorian leap year. -/
def isLeap (y : Int) : Bool := (y % 4 == 0 && y % 100 != 0) || y % 400 == 0

/-- Number of days in a month, for the range validation strptime performs. -/
def daysInMonth (y m : Int) : Int :=
  if m = 2 then (if isLeap y then 29 else 28)
  else if m = 4 ∨ m = 6 ∨ m = 9 ∨ m = 11 then 30
  else 31

/-- Parse a YYYY-MM-DD string as strptime with format %Y-%m-%d would:
three dash-separated digit groups with calendar range checks; none models
the ValueError strptime raises otherwise.  In particular a string that
carries a time component does not parse under this format. -/
def parseDate (s : String) : Option Date :=
  match splitOnChar '-' s.data with
  | [ys, ms, ds] =>
    match charsToNat? ys, charsToNat? ms, charsToNat? ds with
    | some y, some m, some d =>
      if 1 ≤ (m : Int) ∧ (m : Int) ≤ 12 ∧ 1 ≤ (d : Int) ∧
          (d : Int) ≤ daysInMonth (y : Int) (m : Int) then
        some ⟨(y : Int), (m : Int), (d : Int)⟩
      else none
    | _, _, _ => none
  | _ => none

/-- Parse an HH:MM:SS string as strptime with format %H:%M:%S would. -/
def parseTimeOfDay (s : List Char) : Option TimeOfDay :=
  match splitOnChar ':' s with
  | [hs, ms, ss] =>
    match charsToNat? hs, charsToNat? ms, charsToNat? ss with
    | some h, some mi, some se =>
      if (h : Int) ≤ 23 ∧ (mi : Int) ≤ 59 ∧ (se : Int) ≤ 61 then
        some ⟨(h : Int), (mi : Int), (se : Int)⟩
      else none
    | _, _, _ => none
  | _ => none

/-- Parse a YYYY-MM-DD HH:MM:SS string as strptime with format
%Y-%m-%d %H:%M:%S would; none models the ValueError.  A date-only string
has no space and therefore does not parse under this format. -/
def parseDateTime (s : String) : Option DateTime :=
  match splitOnChar ' ' s.data with
  | [dpart, tpart] =>
    match parseDate (String.mk dpart), parseTimeOfDay tpart with
    | some d, some t => some ⟨d, t⟩
    | _, _ => none
  | _ => none

/-- Strict comparison of datetimes, as Python compares datetime objects. -/
def dtLt (a b : DateTime) : Bool :=
  decide (daysFromCivil a.date < daysFromCivil b.date) ||
    (decide (daysFromCivil a.date = daysFromCivil b.date) &&
      (decide (a.time.hh < b.time.hh) ||
        (decide (a.time.hh = b.time.hh) &&
          (decide (a.time.mm < b.time.mm) ||
            (decide (a.time.mm = b.time.mm) && decide (a.time.ss < b.time.ss))))))

/-! Formatting, mirroring strftime with %Y-%m-%d and %H:%M:%S. -/

/-- Character of a decimal digit. -/
def digitChar (d : Nat) : Char := Char.ofNat (48 + d)

/-- Two zero-padded decimal digits, as strftime %m, %d, %H, %M, %S print. -/
def pad2chars (n : Int) : List Char :=
  [digitChar (n.toNat / 10 % 10), digitChar (n.toNat % 10)]

/-- Four zero-padded decimal digits, as strftime %Y prints for our years. -/
def pad4chars (n : Int) : List Char :=
  [digitChar (n.toNat / 1000 % 10), digitChar (n.toNat / 100 % 10),
    digitChar (n.toNat / 10 % 10), digitChar (n.toNat % 10)]

/-- Render a date as YYYY-MM-DD. -/
def formatDate (dt : Date) : String :=
  String.mk (pad4chars dt.y ++ '-' :: pad2chars dt.m ++ '-' :: pad2chars dt.d)

/-- Render a time of day as HH:MM:SS. -/
def formatTime (t : TimeOfDay) : List Char :=
  pad2chars t.hh ++ ':' :: pad2chars t.mm ++ ':' :: pad2chars t.ss

/-- Render a datetime as YYYY-MM-DD HH:MM:SS. -/
def formatDateTime (a : DateTime) : String :=
  String.mk ((formatDate a.date).data ++ ' ' :: formatTime a.time)

/-! Association lists with the update semantics of Python dict assignment:
an existing key keeps its position and gets the new value, a new key is
appended. -/

/-- Python dict assignment d[k] = v on an association list. -/
def alInsert (m : List (String × α)) (k : String) (v : α) : List (String × α) :=
  match m with
  | [] => [(k, v)]
  | (k0, v0) :: rest =>
    if k0 = k then (k, v) :: rest else (k0, v0) :: alInsert rest k v

/-- Python dict lookup d.get(k). -/
def alLookup (m : List (String × α)) (k : String) : Option α :=
  match m with
  | [] => none
  | (k0, v0) :: rest => if k0 = k then some v0 else alLookup rest k

/-! Position ledger, relational path (src/tools/duckdb_queries.py).  One
step spans several rows of the positions table: one row per held symbol,
or a single cash-only row, all carrying the same step_id and cash, as
insert_position_record writes them. -/

/-- Row of the positions table. -/
structure PosRow where
  agent : String
  trade_date : String
  step_id : Int
  ts_code : Option String
  quantity : Int
  cash : Option Int
deriving DecidableEq

/-- Order of the SQL clause ORDER BY step_id DESC.  Rows of one step carry
identical cash and distinct symbols, so the query result does not depend
on how a database orders rows with equal step_id; the stable insertion
sort fixes one such order. -/
def rowStepGe (a b : PosRow) : Prop := b.step_id ≤ a.step_id

instance : DecidableRel rowStepGe :=
  fun a b => inferInstanceAs (Decidable (b.step_id ≤ a.step_id))

/-- Order of the SQL clause ORDER BY trade_date DESC, step_id DESC. -/
def rowDateStepGe (a b : PosRow) : Prop :=
  strLt b.trade_date a.trade_date = true ∨ (b.trade_date = a.trade_date ∧ b.step_id ≤ a.step_id)

instance : DecidableRel rowDateStepGe :=
  fun a b =>
    inferInstanceAs (Decidable (strLt b.trade_date a.trade_date = true ∨
      (b.trade_date = a.trade_date ∧ b.step_id ≤ a.step_id)))

/-- One iteration of the row loops in query_latest_position and
query_today_init_position: a truthy ts_code with positive quantity sets
positions[ts_code], a non-null cash overwrites the running cash. -/
def accPosRow (st : List (String × Int) × Option Int) (r : PosRow) :
    List (String × Int) × Option Int :=
  let ps := match r.ts_code with
    | some s => if s ≠ "" ∧ 0 < r.quantity then alInsert st.1 s r.quantity else st.1
    | none => st.1
  (ps, match r.cash with | some c => some c | none => st.2)

/-- Final step of those loops: if a cash value was seen, store it under the
CASH key. -/
def finishPositions (st : List (String × Int) × Option Int) : List (String × Int) :=
  match st.2 with
  | some c => alInsert st.1 "CASH" c
  | none => st.1

/-- Embedding of query_latest_position: first try the rows dated exactly
max_date in step_id-descending order; otherwise the rows dated before
max_date in (trade_date, step_id)-descending order, stopping at the first
row of an older date (the break in the source loop is the takeWhile on the
leading date of the sorted rows). -/
def query_latest_position (tbl : List PosRow) (signature max_date : String) :
    List (String × Int) × Int :=
  let today := List.insertionSort rowStepGe
    (tbl.filter (fun r => decide (r.agent = signature) && decide (r.trade_date = max_date)))
  match today with
  | r0 :: _ => (finishPositions (today.foldl accPosRow ([], none)), r0.step_id)
  | [] =>
    let before := List.insertionSort rowDateStepGe
      (tbl.filter (fun r => decide (r.agent = signature) && strLt r.trade_date max_date))
    match before with
    | [] => ([], -1)
    | r0 :: _ =>
      let rows := before.takeWhile (fun r => decide (r.trade_date = r0.trade_date))
      (finishPositions (rows.foldl accPosRow ([], none)), r0.step_id)

/-- Embedding of query_today_init_position: rows dated strictly before
today_date, (trade_date, step_id)-descending, folded over the rows of the
most recent date. -/
def query_today_init_position (tbl : List PosRow) (today_date signature : String) :
    List (String × Int) :=
  let df := List.insertionSort rowDateStepGe
    (tbl.filter (fun r => decide (r.agent = signature) && strLt r.trade_date today_date))
  match df with
  | [] => []
  | r0 :: _ =>
    finishPositions
      ((df.takeWhile (fun r => decide (r.trade_date = r0.trade_date))).foldl accPosRow ([], none))

/-- Embedding of the step_id subquery of insert_position_record:
COALESCE(MAX(step_id), -1) + 1 over all rows of the agent. -/
def duckdb_next_step_id (tbl : List PosRow) (signature : String) : Int :=
  (tbl.foldl (fun acc r => if r.agent = signature then max acc r.step_id else acc) (-1)) + 1

/-- Embedding of insert_position_record: one row per non-CASH symbol with
the snapshot cash, or a single cash-only row when there is none.  The id
primary key and the action columns are read by no claim and are elided. -/
def insert_position_record (tbl : List PosRow) (signature date : String)
    (positions : List (String × Int)) : List PosRow :=
  let sid := duckdb_next_step_id tbl signature
  let cash := (alLookup positions "CASH").getD 0
  let stocks := positions.filter (fun p => decide (p.1 ≠ "CASH"))
  tbl ++ (if stocks = [] then [⟨signature, date, sid, none, 0, some cash⟩]
    else stocks.map (fun p => ⟨signature, date, sid, some p.1, p.2, some cash⟩))

/-! Position ledger, journal path (src/tools/price_tools_jsonl.py).  One
journal line is one full snapshot record. -/

/-- One line of an agent position.jsonl file. -/
structure JRec where
  date : String
  id : Int
  positions : List (String × Int)
deriving DecidableEq

/-- Order of the Python sort key (date, id) with reverse=True. -/
def recKeyGe (a b : JRec) : Prop :=
  strLt b.date a.date = true ∨ (b.date = a.date ∧ b.id ≤ a.id)

instance : DecidableRel recKeyGe :=
  fun a b =>
    inferInstanceAs (Decidable (strLt b.date a.date = true ∨ (b.date = a.date ∧ b.id ≤ a.id)))

/-- One record of the first pass of get_latest_position_jsonl: a record
dated today with an id above the running maximum replaces the kept pair. -/
def glpStep (today_date : String) (acc : Int × List (String × Int)) (doc : JRec) :
    Int × List (String × Int) :=
  if doc.date = today_date ∧ acc.1 < doc.id then (doc.id, doc.positions) else acc

/-- Embedding of get_latest_position_jsonl: first pass keeps the record of
maximal id among those dated exactly today_date; if none was kept or its
positions are empty, the second pass keeps the records dated strictly
before today_date with nonempty positions and returns the head of the
stable (date, id)-descending sort. -/
def get_latest_position_jsonl (recs : List JRec) (today_date : String) :
    List (String × Int) × Int :=
  let st := recs.foldl (glpStep today_date) (-1, [])
  if 0 ≤ st.1 ∧ st.2 ≠ [] then (st.2, st.1)
  else
    let all_records := recs.filter
      (fun doc => decide (doc.date ≠ "") && strLt doc.date today_date &&
        decide (doc.positions ≠ []))
    match List.insertionSort recKeyGe all_records with
    | [] => ([], -1)
    | r0 :: _ => (r0.positions, r0.id)

/-- Embedding of get_today_init_position_jsonl: records dated strictly
before today_date (no emptiness filter here), head of the stable
(date, id)-descending sort. -/
def get_today_init_position_jsonl (recs : List JRec) (today_date : String) :
    List (String × Int) :=
  let all_records := recs.filter
    (fun doc => decide (doc.date ≠ "") && strLt doc.date today_date)
  match List.insertionSort recKeyGe all_records with
  | [] => []
  | r0 :: _ => r0.positions

/-- The id that add_position_record_jsonl assigns: one plus the id
component of the latest-at-or-before read at the commit date. -/
def jsonl_next_id (recs : List JRec) (date : String) : Int :=
  (get_latest_position_jsonl recs date).2 + 1

/-- Embedding of add_position_record_jsonl: append one snapshot line with
the derived id. -/
def add_position_record_jsonl (recs : List JRec) (date : String)
    (positions : List (String × Int)) : List JRec :=
  recs ++ [⟨date, jsonl_next_id recs date, positions⟩]

/-! Reference definitions written from the spec wording, for comparison
with the embedded code. -/

/-- Strictly-greater test on the (timestamp, step_id) key of a record. -/
def recKeyGtB (a b : JRec) : Bool :=
  strLt b.date a.date || (decide (a.date = b.date) && decide (b.id < a.id))

/-- Modelled from the spec: latest_at_or_before(agent, t) returns the
holdings-with-cash and step_id of the record with the maximum
(timestamp, step_id) among the records with timestamp at most t, and
({}, -1) when none exists. -/
def spec_latest_at_or_before (hist : List JRec) (t : String) :
    List (String × Int) × Int :=
  match hist.filter (fun r => strLe r.date t) with
  | [] => ([], -1)
  | r0 :: rest =>
    let best := rest.foldl (fun acc r => if recKeyGtB r acc then r else acc) r0
    (best.positions, best.id)

/-- Modelled from the spec: opening_position(agent, T) returns the
holdings of the record with the maximum (timestamp, step_id) among the
records with timestamp strictly less than T, and the empty map when none
exists. -/
def spec_opening_position (hist : List JRec) (t : String) : List (String × Int) :=
  match hist.filter (fun r => strLt r.date t) with
  | [] => []
  | r0 :: rest =>
    (rest.foldl (fun acc r => if recKeyGtB r acc then r else acc) r0).positions

/-- Modelled from the spec: the step_id of a new record is one plus the
maximum step_id over the entire history of the agent, 0 for the first. -/
def spec_next_step_id (hist : List JRec) : Int :=
  (hist.foldl (fun acc r => max acc r.id) (-1)) + 1

/-- Rows that the relational store holds for one snapshot record, exactly
as insert_position_record writes them. -/
def step_rows (agent : String) (st : JRec) : List PosRow :=
  let cash := (alLookup st.positions "CASH").getD 0
  let stocks := st.positions.filter (fun p => decide (p.1 ≠ "CASH"))
  if stocks = [] then [⟨agent, st.date, st.id, none, 0, some cash⟩]
  else stocks.map (fun p => ⟨agent, st.date, st.id, some p.1, p.2, some cash⟩)

/-- The positions table that corresponds to a list of snapshot records. -/
def table_of_history (agent : String) (hist : List JRec) : List PosRow :=
  (hist.map (step_rows agent)).flatten

/-! Market data, relational path (src/tools/duckdb_queries.py). -/

/-- Row of the stock_daily_prices table (only the columns the embedded
queries read). -/
structure PriceRow where
  ts_code : String
  trade_date : String
  market : String
  opn : Option Int
deriving DecidableEq

/-- Row of the stock_hourly_prices table. -/
structure HourRow where
  ts_code : String
  trade_time : String
  opn : Option Int
deriving DecidableEq

/-- Ascending string order as a sort relation, for the SQL ORDER BY and
the Python sorted() calls on date strings. -/
def strLeP (a b : String) : Prop := strLe a b = true

instance : DecidableRel strLeP := fun a b => inferInstanceAs (Decidable (strLe a b = true))

/-- One comparison of a running string maximum. -/
def maxStrStep (acc : Option String) (s : String) : Option String :=
  match acc with
  | none => some s
  | some m => if strLt m s then some s else some m

/-- Maximum of a list of strings under the code-point order, none for the
empty list: the SQL MAX aggregate over a string-rendered column. -/
def maxStr? (xs : List String) : Option String := xs.foldl maxStrStep none

/-- The trailing loop of both open-price queries: add a None entry for
every requested symbol whose key is still missing from the dict. -/
def fillMissing (symbols : List String) (result : List (String × Option Int)) :
    List (String × Option Int) :=
  symbols.foldl (fun acc s =>
    if (alLookup acc (s ++ "_price")).isSome then acc
    else alInsert acc (s ++ "_price") none) result

/-- Embedding of query_daily_open_prices: one dict entry per matching row,
then a None entry for every requested symbol still missing.  Row order of
the SQL result only permutes dict keys of distinct symbols, so the
key-wise content is order-independent. -/
def query_daily_open_prices (tbl : List PriceRow) (symbols : List String)
    (date market : String) : List (String × Option Int) :=
  if symbols = [] then []
  else
    let df := tbl.filter (fun r =>
      decide (r.ts_code ∈ symbols) && decide (r.trade_date = date) && decide (r.market = market))
    fillMissing symbols (df.foldl (fun acc r => alInsert acc (r.ts_code ++ "_price") r.opn) [])

/-- Embedding of query_hourly_open_prices. -/
def query_hourly_open_prices (tbl : List HourRow) (symbols : List String)
    (datetime_str : String) : List (String × Option Int) :=
  if symbols = [] then []
  else
    let df := tbl.filter (fun r =>
      decide (r.ts_code ∈ symbols) && decide (r.trade_time = datetime_str))
    fillMissing symbols (df.foldl (fun acc r => alInsert acc (r.ts_code ++ "_price") r.opn) [])

/-- Embedding of query_previous_trading_day: the maximum stored timestamp
strictly below today_date, at the granularity selected by the presence of
a space in today_date; the strftime round-trip is the identity on the
string-rendered column values. -/
def query_previous_trading_day (daily : List PriceRow) (hourly : List HourRow)
    (today_date market : String) : Option String :=
  if hasChar today_date ' ' then
    maxStr? ((hourly.filter (fun r => strLt r.trade_time today_date)).map (fun r => r.trade_time))
  else
    maxStr? ((daily.filter (fun r =>
      strLt r.trade_date today_date && decide (r.market = market))).map (fun r => r.trade_date))

/-- Embedding of query_all_trading_days: the distinct daily dates of the
market, ascending. -/
def query_all_trading_days (tbl : List PriceRow) (market : String) : List String :=
  List.insertionSort strLeP
    (((tbl.filter (fun r => decide (r.market = market))).map (fun r => r.trade_date)).dedup)

/-! Market data, journal path (src/tools/price_tools_jsonl.py).  One line
of a merged journal file holds one symbol and one Time Series object; the
key-startswith-Time-Series scan of the source selects exactly that
object.  A journal argument of none models a missing merged file. -/

/-- One line of a merged market journal file: the Meta Data symbol and the
per-timestamp bar dictionaries, JSON values kept as strings. -/
structure JLine where
  symbol : String
  series : List (String × List (String × String))
deriving DecidableEq

/-- Python float(value) on the integer-valued price literals of our
inputs; none models the parse failure the except branch catches. -/
def parsePrice (s : String) : Option Int := s.toInt?

/-- One line step of get_open_prices_jsonl: a requested symbol
contributes an entry only when its line holds a bar dictionary at
today_date; a bar lacking the buy-price key contributes None. -/
def gopStep (symbols : List String) (today_date : String)
    (acc : List (String × Option Int)) (l : JLine) : List (String × Option Int) :=
  if decide (l.symbol ∈ symbols) then
    match alLookup l.series today_date with
    | some bar =>
      alInsert acc (l.symbol ++ "_price")
        (match alLookup bar "1. buy price" with
         | some v => parsePrice v
         | none => none)
    | none => acc
  else acc

/-- Embedding of get_open_prices_jsonl.  Symbols with no line or no bar
at the date are omitted from the result. -/
def get_open_prices_jsonl (journal : Option (List JLine)) (today_date : String)
    (symbols : List String) : List (String × Option Int) :=
  match journal with
  | none => []
  | some lines => lines.foldl (gopStep symbols today_date) []

/-- Embedding of get_all_trading_days_jsonl: the sorted set of daily
series keys of the journal. -/
def get_all_trading_days_jsonl (journal : Option (List JLine)) : List String :=
  match journal with
  | none => []
  | some lines =>
    List.insertionSort strLeP ((lines.map (fun l => l.series.map (fun kv => kv.1))).flatten.dedup)

/-- All timestamp keys of the journal, as the key-collection loop of
get_yesterday_date_jsonl gathers them (set semantics: duplicates do not
affect the maximum). -/
def gydCollect (lines : List JLine) : List String :=
  (lines.map (fun l => l.series.map (fun kv => kv.1))).flatten

/-- The maximum key that parses under %Y-%m-%d %H:%M:%S and lies strictly
below the input instant; keys that fail to parse are skipped, exactly as
the except-continue of the source skips them. -/
def prevParsed (keys : List String) (input : DateTime) : Option DateTime :=
  keys.foldl (fun acc ts =>
    match parseDateTime ts with
    | none => acc
    | some t =>
      if dtLt t input then
        match acc with
        | none => some t
        | some m => if dtLt m t then some t else some m
      else acc) none

/-- One hour before a datetime, the timedelta(hours=1) subtraction. -/
def subOneHour (a : DateTime) : DateTime :=
  if 1 ≤ a.time.hh then ⟨a.date, ⟨a.time.hh - 1, a.time.mm, a.time.ss⟩⟩
  else ⟨addDays a.date (-1), ⟨23, a.time.mm, a.time.ss⟩⟩

/-- Daily branch of get_yesterday_date_jsonl after parsing. -/
def gydDaily (journal : Option (List JLine)) (d : Date) : String :=
  match journal with
  | none => formatDate (prevWeekdayDate d)
  | some lines =>
    let keys := gydCollect lines
    if keys = [] then formatDate (prevWeekdayDate d)
    else
      match prevParsed keys ⟨d, ⟨0, 0, 0⟩⟩ with
      | none => formatDate (prevWeekdayDate d)
      | some p => formatDate p.date

/-- Hourly branch of get_yesterday_date_jsonl after parsing.  The
no-previous branch reproduces the %H:%M:%SS format typo of the source,
which appends a literal S to the rendered time. -/
def gydHourly (journal : Option (List JLine)) (idt : DateTime) : String :=
  match journal with
  | none => formatDateTime (subOneHour idt)
  | some lines =>
    let keys := gydCollect lines
    if keys = [] then formatDateTime (subOneHour idt)
    else
      match prevParsed keys idt with
      | none => String.mk ((formatDateTime (subOneHour idt)).data ++ ['S'])
      | some p => formatDateTime p

/-- Embedding of get_yesterday_date_jsonl; none models the ValueError
strptime raises on a malformed input date. -/
def get_yesterday_date_jsonl (journal : Option (List JLine)) (today_date : String) :
    Option String :=
  if hasChar today_date ' ' then
    match parseDateTime today_date with
    | none => none
    | some input_dt => some (gydHourly journal input_dt)
  else
    match parseDate today_date with
    | none => none
    | some d => some (gydDaily journal d)

/-! The facade (src/tools/data_access.py).  dbOk is false when the primary
query raises, which covers connection failures and missing tables; no
other information about the primary is consulted before falling back. -/

/-- Result of a facade call: a returned value or a surfaced exception. -/
inductive FaResult (α : Type)
  | ok (v : α)
  | raised
deriving DecidableEq

/-- Embedding of PriceDataAccess.get_open_prices: primary first when
preferred and reachable, journal when the primary raises with fallback
enabled or when the primary returns an empty dict. -/
def fa_get_open_prices (preferDuckdb dbOk fallbackEnabled : Bool)
    (dailyTbl : List PriceRow) (hourlyTbl : List HourRow) (journal : Option (List JLine))
    (today_date : String) (symbols : List String) (market : String) :
    FaResult (List (String × Option Int)) :=
  if preferDuckdb then
    if dbOk then
      let result :=
        if hasChar today_date ' ' then query_hourly_open_prices hourlyTbl symbols today_date
        else query_daily_open_prices dailyTbl symbols today_date market
      if result ≠ [] then .ok result
      else .ok (get_open_prices_jsonl journal today_date symbols)
    else if fallbackEnabled then .ok (get_open_prices_jsonl journal today_date symbols)
    else .raised
  else .ok (get_open_prices_jsonl journal today_date symbols)

/-- Embedding of PriceDataAccess.get_all_trading_days, same strategy. -/
def fa_get_all_trading_days (preferDuckdb dbOk fallbackEnabled : Bool)
    (tbl : List PriceRow) (journal : Option (List JLine)) (market : String) :
    FaResult (List String) :=
  if preferDuckdb then
    if dbOk then
      let result := query_all_trading_days tbl market
      if result ≠ [] then .ok result
      else .ok (get_all_trading_days_jsonl journal)
    else if fallbackEnabled then .ok (get_all_trading_days_jsonl journal)
    else .raised
  else .ok (get_all_trading_days_jsonl journal)

/-! The dual write (PositionDataAccess.add_position_record). -/

/-- Stores the commit attempts: the primary only when preferred, the
journal always. -/
def add_position_record_attempts (preferDuckdb : Bool) : List String :=
  (if preferDuckdb then ["DuckDB"] else []) ++ ["JSONL"]

/-- The errors list the commit accumulates. -/
def add_position_record_errors (preferDuckdb duckdbFails jsonlFails : Bool) : List String :=
  (if preferDuckdb && duckdbFails then ["DuckDB"] else []) ++
    (if jsonlFails then ["JSONL"] else [])

/-- Whether the commit raises: exactly when the errors list has length 2. -/
def add_position_record_raises (preferDuckdb duckdbFails jsonlFails : Bool) : Bool :=
  (add_position_record_errors preferDuckdb duckdbFails jsonlFails).length == 2

/-! Auto-resume range computation (src/main.py). -/

/-- The fixed A-share hourly trading times of main.py. -/
def TRADING_HOURS : List String := ["10:30:00", "11:30:00", "14:00:00", "15:00:00"]

/-- Embedding of get_next_hourly_timestamp; none models the strptime
ValueError on a malformed input. -/
def get_next_hourly_timestamp (timestamp : String) : Option String :=
  match parseDateTime timestamp with
  | none => none
  | some dt =>
    let current_time := String.mk (formatTime dt.time)
    match TRADING_HOURS.find? (fun h => strLt current_time h) with
    | some h => some (String.mk ((formatDate dt.date).data ++ ' ' :: h.data))
    | none =>
      some (String.mk ((formatDate (nextWeekdayDate dt.date)).data ++ ' ' :: "10:30:00".data))

/-- The date part of a timestamp string, as the split-at-space of the
source extracts it. -/
def datePart (s : String) : String :=
  if hasChar s ' ' then String.mk ((splitOnChar ' ' s.data).headI) else s

/-- The key a timestamp contributes to the two latest-date scans of
main.py: the full timestamp for hourly, the date part for daily. -/
def ltdKey (frequency k : String) : String :=
  if frequency = "hourly" then k else datePart k

/-- One comparison of those scans: a falsy key is skipped, a key above the
running latest replaces it. -/
def maxKeyStep (acc : Option String) (key : String) : Option String :=
  if key = "" then acc
  else
    match acc with
    | none => some key
    | some m => if strLt m key then some key else some m

/-- Embedding of get_latest_trading_day: maximum series key over all
journal lines under the frequency transform; none for a missing file. -/
def get_latest_trading_day (journal : Option (List JLine)) (frequency : String) :
    Option String :=
  match journal with
  | none => none
  | some lines =>
    lines.foldl (fun acc l =>
      l.series.foldl (fun acc2 kv => maxKeyStep acc2 (ltdKey frequency kv.1)) acc) none

/-- Embedding of get_latest_position_date: maximum record date of the
agent position journal under the frequency transform. -/
def get_latest_position_date (posfile : Option (List JRec)) (frequency : String) :
    Option String :=
  match posfile with
  | none => none
  | some recs =>
    recs.foldl (fun acc doc => maxKeyStep acc (ltdKey frequency doc.date)) none

/-- Embedding of calculate_date_range.  nowDate stands for the date of
datetime.now(), used only when the price journal yields no end; none
models a strptime ValueError. -/
def calculate_date_range (journal : Option (List JLine)) (posfile : Option (List JRec))
    (frequency : String) (nowDate : Date) : Option (String × String) :=
  let end_date :=
    match get_latest_trading_day journal frequency with
    | some e => e
    | none =>
      if frequency = "hourly" then String.mk ((formatDate nowDate).data ++ ' ' :: "15:00:00".data)
      else formatDate nowDate
  match get_latest_position_date posfile frequency with
  | some lp =>
    if frequency = "hourly" then
      match get_next_hourly_timestamp lp with
      | some s => some (s, end_date)
      | none => none
    else
      match parseDate lp with
      | some d => some (formatDate (addDays d 1), end_date)
      | none => none
  | none =>
    if frequency = "hourly" then
      match parseDateTime end_date with
      | some edt =>
        some (String.mk ((formatDate (addDays edt.date (-30))).data ++ ' ' :: "10:30:00".data),
          end_date)
      | none => none
    else
      match parseDate end_date with
      | some ed => some (formatDate (addDays ed (-30)), end_date)
      | none => none

/-- One comparison of a running string minimum. -/
def minStrStep (acc : Option String) (s : String) : Option String :=
  match acc with
  | none => some s
  | some m => if strLt s m then some s else some m

/-- Minimum of a list of strings under the code-point order. -/
def minStr? (xs : List String) : Option String := xs.foldl minStrStep none

/-- Modelled from the spec: the next trading day strictly after t, read
from the trading calendar. -/
def spec_next_trading_day (days : List String) (t : String) : Option String :=
  minStr? (days.filter (fun d2 => strLt t d2))

/-! Runner registry (src/api/services/agent_runner.py). -/

/-- Lifecycle status of an AgentRun. -/
inductive AgentStatus
  | pending
  | running
  | completed
  | failed
  | cancelled
deriving DecidableEq

/-- The fields of an AgentRun that cancel_run consults. -/
structure RunEntry where
  status : AgentStatus
  hasTask : Bool
  taskDone : Bool
deriving DecidableEq

/-- Embedding of AgentRunnerService.cancel_run: the boolean result paired
with the registry afterwards.  The method never mutates the registry on
this path; it only requests task cancellation for a RUNNING run holding a
live task. -/
def cancel_run (runs : List (String × RunEntry)) (run_id : String) :
    Bool × List (String × RunEntry) :=
  match alLookup runs run_id with
  | none => (false, runs)
  | some r =>
    if r.status ≠ .running then (false, runs)
    else if r.hasTask && !r.taskDone then (true, runs)
    else (false, runs)

/-! Daily market-journal merge (src/data/A_stock/merge_jsonl.py), the
per-symbol CSV group conversion of convert_a_stock_to_jsonl. -/

/-- One CSV row of a per-symbol group, trade dates in YYYYMMDD form. -/
structure CsvRow where
  trade_date : String
  opn : String
  high : String
  low : String
  close : String
  vol : Option Int
deriving DecidableEq

/-- The group maximum trade date, the value of trade_date.max() on a
nonempty group (dates are nonempty digit strings, so the empty-string
seed is below all of them). -/
def csvLatestDate (rows : List CsvRow) : String :=
  rows.foldl (fun acc r => if strLt acc r.trade_date then r.trade_date else acc) ""

/-- YYYYMMDD reformatted as YYYY-MM-DD by the slicing of the source. -/
def fmtYmd (s : String) : String :=
  String.mk (s.data.take 4 ++ '-' :: (s.data.drop 4).take 2 ++ '-' :: s.data.drop 6)

/-- The bar dictionary written for one CSV row: only the buy price on the
group-latest date, the full five fields otherwise; vol is None for a NaN
cell and is scaled from lots to shares. -/
def csvBar (isLatest : Bool) (r : CsvRow) : List (String × String) :=
  if isLatest then [("1. buy price", r.opn)]
  else
    [("1. buy price", r.opn), ("2. high", r.high), ("3. low", r.low),
      ("4. sell price", r.close),
      ("5. volume", match r.vol with | some v => toString (v * 100) | none => "0")]

/-- Ascending trade-date order of the sort_values call. -/
def csvDateLe (a b : CsvRow) : Prop := strLe a.trade_date b.trade_date = true

instance : DecidableRel csvDateLe :=
  fun a b => inferInstanceAs (Decidable (strLe a.trade_date b.trade_date = true))

/-- Embedding of the Time Series (Daily) object built for one symbol
group by convert_a_stock_to_jsonl. -/
def convert_time_series (rows : List CsvRow) : List (String × List (String × String)) :=
  let latest := csvLatestDate rows
  (List.insertionSort csvDateLe rows).foldl
    (fun acc r => alInsert acc (fmtYmd r.trade_date) (csvBar (decide (r.trade_date = latest)) r))
    []

/-! Concrete fixtures used by counterexamples and witnesses. -/

/-- A history with two steps on one date: step 0 buys, step 1 sells out. -/
def histTwoSteps : List JRec :=
  [⟨"2025-01-02", 0, [("600519.SH", 10), ("CASH", 83000)]⟩,
   ⟨"2025-01-02", 1, [("CASH", 100100)]⟩]

/-- The positions-table rows of that history. -/
def tblTwoSteps : List PosRow := table_of_history "agent-a" histTwoSteps

/-- A journal whose only record is dated 2025-01-10. -/
def recsLateFirst : List JRec := [⟨"2025-01-10", 0, [("CASH", 100)]⟩]

/-- The newest record of the chronological journal below. -/
def recTip : JRec := ⟨"2025-01-03", 1, [("CASH", 100100)]⟩

/-- A chronological two-record journal. -/
def recsChrono : List JRec := [⟨"2025-01-02", 0, [("CASH", 100000)]⟩, recTip]

/-- A market journal with a single bar on 2025-01-02. -/
def jrOneBar : List JLine := [⟨"600519.SH", [("2025-01-02", [("1. buy price", "1700")])]⟩]

/-- A daily market journal holding 2025-01-02 and 2025-01-06. -/
def jrTwoDays : List JLine :=
  [⟨"600519.SH",
    [("2025-01-02", [("1. buy price", "1700")]), ("2025-01-06", [("1. buy price", "1710")])]⟩]

/-- The daily price-table rows matching jrTwoDays. -/
def tblTwoDays : List PriceRow :=
  [⟨"600519.SH", "2025-01-02", "cn", some 1700⟩, ⟨"600519.SH", "2025-01-06", "cn", some 1710⟩]

/-- A daily market journal holding 2025-01-02, 2025-01-03 and 2025-01-06
(the weekend of 2025-01-04 and 2025-01-05 has no bars). -/
def jrThreeDays : List JLine :=
  [⟨"600519.SH",
    [("2025-01-02", [("1. buy price", "1700")]), ("2025-01-03", [("1. buy price", "1702")]),
      ("2025-01-06", [("1. buy price", "1710")])]⟩]

/-- An agent position journal whose tip is Friday 2025-01-03. -/
def posTipFriday : List JRec := [⟨"2025-01-03", 0, [("CASH", 100000)]⟩]

/-- A registry holding one pending run. -/
def runsOnePending : List (String × RunEntry) := [("r1", ⟨.pending, false, false⟩)]

/-- Two CSV rows of one symbol group. -/
def rowsTwoDays : List CsvRow :=
  [⟨"20250102", "1700", "1720", "1690", "1715", some 12000⟩,
   ⟨"20250103", "1716", "1730", "1700", "1725", some 9000⟩]

end AITrader

namespace AITrader

/-! Bridges between the boolean string comparisons and the lexicographic
order on character lists. -/

theorem strLt_iff {s t : String} : strLt s t = true ↔ s.data < t.data := by
  simp [strLt]

theorem strLt_false_iff {s t : String} : strLt s t = false ↔ ¬ s.data < t.data := by
  simp [strLt]

theorem strLe_iff {s t : String} : strLe s t = true ↔ s.data ≤ t.data := by
  simp [strLe, strLt, not_lt]

theorem str_data_inj {s t : String} (h : s.data = t.data) : s = t := by
  cases s
  cases t
  exact congrArg String.mk h

theorem strLt_of_strLe_ne {s t : String} (h : strLe s t = true) (hne : s ≠ t) :
    strLt s t = true := by
  rw [strLe_iff] at h
  rw [strLt_iff]
  rcases lt_or_eq_of_le h with h2 | h2
  · exact h2
  · exact absurd (str_data_inj h2) hne

theorem strLt_asymm {s t : String} (h : strLt s t = true) : strLt t s = false := by
  rw [strLt_iff] at h
  rw [strLt_false_iff]
  exact asymm h

/-! Association list lemmas. -/

theorem alLookup_alInsert_self (m : List (String × α)) (k : String) (v : α) :
    alLookup (alInsert m k v) k = some v := by
  induction m with
  | nil => simp [alInsert, alLookup]
  | cons p rest ih =>
    obtain ⟨k0, v0⟩ := p
    by_cases h : k0 = k <;> simp [alInsert, alLookup, h, ih]

theorem alLookup_alInsert_ne (m : List (String × α)) (k k' : String) (v : α)
    (h : k' ≠ k) : alLookup (alInsert m k v) k' = alLookup m k' := by
  have hkk : ¬(k = k') := fun e => h e.symm
  induction m with
  | nil => simp [alInsert, alLookup, hkk]
  | cons p rest ih =>
    obtain ⟨k0, v0⟩ := p
    by_cases h0 : k0 = k
    · subst h0
      simp [alInsert, alLookup, hkk]
    · by_cases h1 : k0 = k' <;> simp [alInsert, alLookup, h0, h1, h, ih]

theorem alLookup_isSome_alInsert (m : List (String × α)) (k k' : String) (v : α)
    (h : (alLookup m k').isSome) : (alLookup (alInsert m k v) k').isSome := by
  by_cases hk : k' = k
  · subst hk
    simp [alLookup_alInsert_self]
  · rwa [alLookup_alInsert_ne m k k' v hk]

/-! Lemmas about the running string maximum. -/

theorem maxStrStep_some {acc : Option String} {s m : String}
    (h : maxStrStep acc s = some m) : m = s ∨ acc = some m := by
  cases acc with
  | none =>
    simp only [maxStrStep, Option.some.injEq] at h
    exact Or.inl h.symm
  | some a =>
    simp only [maxStrStep] at h
    by_cases hlt : strLt a s = true
    · rw [if_pos hlt, Option.some.injEq] at h
      exact Or.inl h.symm
    · rw [if_neg hlt] at h
      exact Or.inr h

theorem maxStrStep_ge (acc : Option String) (s : String) :
    ∃ m, maxStrStep acc s = some m ∧ strLe s m = true := by
  cases acc with
  | none =>
    exact ⟨s, rfl, by rw [strLe_iff]⟩
  | some a =>
    by_cases hlt : strLt a s = true
    · exact ⟨s, by simp [maxStrStep, hlt], by rw [strLe_iff]⟩
    · refine ⟨a, by simp [maxStrStep, hlt], ?_⟩
      rw [strLe_iff]
      rw [Bool.not_eq_true] at hlt
      rw [strLt_false_iff] at hlt
      exact le_of_not_lt hlt

theorem maxStrStep_mono {acc : Option String} {a s : String} (h : acc = some a) :
    ∃ m, maxStrStep acc s = some m ∧ strLe a m = true := by
  subst h
  by_cases hlt : strLt a s = true
  · refine ⟨s, by simp [maxStrStep, hlt], ?_⟩
    rw [strLe_iff]
    exact le_of_lt (strLt_iff.mp hlt)
  · exact ⟨a, by simp [maxStrStep, hlt], by rw [strLe_iff]⟩

theorem maxStr?_foldl_mem : ∀ (xs : List String) (acc : Option String) (m : String),
    xs.foldl maxStrStep acc = some m → m ∈ xs ∨ acc = some m := by
  intro xs
  induction xs with
  | nil => intro acc m h; exact Or.inr h
  | cons x rest ih =>
    intro acc m h
    rcases ih (maxStrStep acc x) m h with hmem | hacc
    · exact Or.inl (List.mem_cons_of_mem x hmem)
    · rcases maxStrStep_some hacc with he | ha
      · exact Or.inl (he ▸ List.mem_cons_self x rest)
      · exact Or.inr ha

theorem foldl_maxStrStep_mono : ∀ (xs : List String) {acc : Option String} {a : String},
    acc = some a → ∃ m, xs.foldl maxStrStep acc = some m ∧ strLe a m = true := by
  intro xs
  induction xs with
  | nil => intro acc a h; exact ⟨a, h, by rw [strLe_iff]⟩
  | cons x rest ih =>
    intro acc a h
    obtain ⟨m1, hm1, h1⟩ := maxStrStep_mono h
    obtain ⟨m2, hm2, h2⟩ := ih hm1
    refine ⟨m2, hm2, ?_⟩
    rw [strLe_iff] at h1 h2 ⊢
    exact le_trans h1 h2

theorem maxStr?_foldl_ub : ∀ (xs : List String) (acc : Option String) (x : String),
    x ∈ xs → ∃ m, xs.foldl maxStrStep acc = some m ∧ strLe x m = true := by
  intro xs
  induction xs with
  | nil => intro acc x h; cases h
  | cons y rest ih =>
    intro acc x h
    rw [List.foldl_cons]
    rcases List.mem_cons.mp h with he | hm
    · subst he
      obtain ⟨m1, hm1, hx1⟩ := maxStrStep_ge acc x
      obtain ⟨m3, hm3, h13⟩ := foldl_maxStrStep_mono rest hm1
      refine ⟨m3, hm3, ?_⟩
      rw [strLe_iff] at hx1 h13 ⊢
      exact le_trans hx1 h13
    · exact ih (maxStrStep acc y) x hm

theorem maxStr?_mem {xs : List String} {m : String} (h : maxStr? xs = some m) : m ∈ xs := by
  rcases maxStr?_foldl_mem xs none m h with hm | hacc
  · exact hm
  · cases hacc

theorem maxStr?_ub {xs : List String} {m x : String} (h : maxStr? xs = some m)
    (hx : x ∈ xs) : strLe x m = true := by
  obtain ⟨m2, hm2, hx2⟩ := maxStr?_foldl_ub xs none x hx
  rw [maxStr?] at h
  rw [h] at hm2
  cases hm2
  exact hx2

theorem maxStr?_nil_of_none : ∀ {xs : List String}, maxStr? xs = none → xs = [] := by
  intro xs h
  cases xs with
  | nil => rfl
  | cons x rest =>
    obtain ⟨m, hm, _⟩ := maxStr?_foldl_ub (x :: rest) none x (List.mem_cons_self x rest)
    rw [maxStr?] at h
    rw [h] at hm
    cases hm

/-! Lemmas about the step_id maximum of insert_position_record. -/

theorem duckdb_foldl_max_mono (sig : String) :
    ∀ (tbl : List PosRow) (init : Int),
      init ≤ tbl.foldl (fun acc r => if r.agent = sig then max acc r.step_id else acc) init := by
  intro tbl
  induction tbl with
  | nil => intro init; exact le_refl init
  | cons r rest ih =>
    intro init
    rw [List.foldl_cons]
    refine le_trans ?_ (ih _)
    by_cases h : r.agent = sig <;> simp [h]

theorem duckdb_foldl_max_ub (sig : String) :
    ∀ (tbl : List PosRow) (init : Int) (r : PosRow), r ∈ tbl → r.agent = sig →
      r.step_id ≤ tbl.foldl (fun acc r => if r.agent = sig then max acc r.step_id else acc) init := by
  intro tbl
  induction tbl with
  | nil => intro init r h; cases h
  | cons x rest ih =>
    intro init r h hsig
    rw [List.foldl_cons]
    rcases List.mem_cons.mp h with he | hm
    · subst he
      refine le_trans ?_ (duckdb_foldl_max_mono sig rest _)
      simp [hsig]
    · exact ih _ r hm hsig

/-! Lemmas about the missing-symbol loop of the open-price queries. -/

theorem fillMissing_cons (a : String) (rest : List String)
    (result : List (String × Option Int)) :
    fillMissing (a :: rest) result
      = fillMissing rest (if (alLookup result (a ++ "_price")).isSome then result
          else alInsert result (a ++ "_price") none) := rfl

theorem fillMissing_preserves :
    ∀ (symbols : List String) (result : List (String × Option Int)) (k : String),
      (alLookup result k).isSome → (alLookup (fillMissing symbols result) k).isSome := by
  intro symbols
  induction symbols with
  | nil => intro result k h; exact h
  | cons a rest ih =>
    intro result k h
    rw [fillMissing_cons]
    apply ih
    by_cases hp : (alLookup result (a ++ "_price")).isSome
    · simpa [hp] using h
    · simp only [hp, if_false]
      exact alLookup_isSome_alInsert result (a ++ "_price") k none h

theorem fillMissing_mem :
    ∀ (symbols : List String) (result : List (String × Option Int)) (s : String),
      s ∈ symbols → (alLookup (fillMissing symbols result) (s ++ "_price")).isSome := by
  intro symbols
  induction symbols with
  | nil => intro result s h; cases h
  | cons a rest ih =>
    intro result s h
    rw [fillMissing_cons]
    rcases List.mem_cons.mp h with he | hm
    · subst he
      apply fillMissing_preserves
      by_cases hp : (alLookup result (s ++ "_price")).isSome
      · simp [hp]
      · rw [if_neg hp, alLookup_alInsert_self]
        rfl
    · exact ih _ s hm

/-! Generic provenance and presence of a fold of dict assignments. -/

theorem foldl_alInsert_lookup {β γ : Type} (key : β → String) (val : β → γ) :
    ∀ (xs : List β) (acc : List (String × γ)) (k : String) (v : γ),
      alLookup (xs.foldl (fun a x => alInsert a (key x) (val x)) acc) k = some v →
      (∃ x ∈ xs, key x = k ∧ val x = v) ∨ alLookup acc k = some v := by
  intro xs
  induction xs with
  | nil => intro acc k v h; exact Or.inr h
  | cons x rest ih =>
    intro acc k v h
    rw [List.foldl_cons] at h
    rcases ih _ k v h with hx | hacc
    · obtain ⟨x2, hx2, hk, hv⟩ := hx
      exact Or.inl ⟨x2, List.mem_cons_of_mem x hx2, hk, hv⟩
    · by_cases hk : k = key x
      · subst hk
        rw [alLookup_alInsert_self] at hacc
        exact Or.inl ⟨x, List.mem_cons_self x rest, rfl, Option.some.inj hacc⟩
      · rw [alLookup_alInsert_ne _ _ _ _ hk] at hacc
        exact Or.inr hacc

theorem foldl_alInsert_isSome_preserved {β γ : Type} (key : β → String) (val : β → γ) :
    ∀ (xs : List β) (acc : List (String × γ)) (k : String),
      (alLookup acc k).isSome →
      (alLookup (xs.foldl (fun a x => alInsert a (key x) (val x)) acc) k).isSome := by
  intro xs
  induction xs with
  | nil => intro acc k h; exact h
  | cons x rest ih =>
    intro acc k h
    rw [List.foldl_cons]
    exact ih _ k (alLookup_isSome_alInsert acc (key x) k (val x) h)

theorem foldl_alInsert_mem {β γ : Type} (key : β → String) (val : β → γ) :
    ∀ (xs : List β) (acc : List (String × γ)) (x : β), x ∈ xs →
      (alLookup (xs.foldl (fun a x => alInsert a (key x) (val x)) acc) (key x)).isSome := by
  intro xs
  induction xs with
  | nil => intro acc x h; cases h
  | cons y rest ih =>
    intro acc x h
    rw [List.foldl_cons]
    rcases List.mem_cons.mp h with he | hm
    · subst he
      apply foldl_alInsert_isSome_preserved
      rw [alLookup_alInsert_self]
      rfl
    · exact ih _ x hm

/-! Provenance of the journal open-price fold. -/

theorem gop_foldl_lookup (symbols : List String) (today_date : String) :
    ∀ (lines : List JLine) (acc : List (String × Option Int)) (k : String) (v : Option Int),
      alLookup (lines.foldl (gopStep symbols today_date) acc) k = some v →
      (∃ l ∈ lines, l.symbol ∈ symbols ∧ k = l.symbol ++ "_price" ∧
        ∃ bar, alLookup l.series today_date = some bar) ∨ alLookup acc k = some v := by
  intro lines
  induction lines with
  | nil => intro acc k v h; exact Or.inr h
  | cons l rest ih =>
    intro acc k v h
    rw [List.foldl_cons] at h
    rcases ih _ k v h with hx | hacc
    · obtain ⟨l2, hl2, hs, hk, hbar⟩ := hx
      exact Or.inl ⟨l2, List.mem_cons_of_mem l hl2, hs, hk, hbar⟩
    · by_cases hs : l.symbol ∈ symbols
      · rcases hbar : alLookup l.series today_date with _ | bar
        · rw [gopStep, if_pos (by simpa using hs), hbar] at hacc
          exact Or.inr hacc
        · by_cases hk : k = l.symbol ++ "_price"
          · exact Or.inl ⟨l, List.mem_cons_self l rest, hs, hk, bar, hbar⟩
          · rw [gopStep, if_pos (by simpa using hs), hbar,
              alLookup_alInsert_ne _ _ _ _ hk] at hacc
            exact Or.inr hacc
      · rw [gopStep, if_neg (by simpa using hs)] at hacc
        exact Or.inr hacc

/-! Head of a stable insertion sort under a total transitive relation. -/

theorem insertionSort_head_rel {α : Type} (r : α → α → Prop) [DecidableRel r]
    (htot : ∀ a b, r a b ∨ r b a) (htr : ∀ a b c, r a b → r b c → r a c)
    (l : List α) (x0 : α) (xs : List α) (h : List.insertionSort r l = x0 :: xs) :
    x0 ∈ l ∧ ∀ a ∈ l, r x0 a := by
  haveI : IsTotal α r := ⟨htot⟩
  haveI : IsTrans α r := ⟨fun a b c => htr a b c⟩
  have hs := List.sorted_insertionSort r l
  have hp := List.perm_insertionSort r l
  rw [h] at hs hp
  refine ⟨hp.subset (List.mem_cons_self x0 xs), ?_⟩
  intro a ha
  have ha2 : a ∈ x0 :: xs := hp.mem_iff.mpr ha
  rcases List.mem_cons.mp ha2 with he | ht
  · subst he
    rcases htot a a with h2 | h2 <;> exact h2
  · exact (List.sorted_cons.mp hs).1 a ht

/-! Lemmas about the skip-empty string maximum of the main.py scans. -/

theorem maxKeyStep_mono {acc : Option String} {a : String} (key : String)
    (h : acc = some a) : ∃ m, maxKeyStep acc key = some m ∧ strLe a m = true := by
  subst h
  by_cases he : key = ""
  · exact ⟨a, by simp [maxKeyStep, he], by rw [strLe_iff]⟩
  · by_cases hlt : strLt a key = true
    · refine ⟨key, by simp [maxKeyStep, he, hlt], ?_⟩
      rw [strLe_iff]
      exact le_of_lt (strLt_iff.mp hlt)
    · exact ⟨a, by simp [maxKeyStep, he, hlt], by rw [strLe_iff]⟩

theorem maxKeyStep_ge {key : String} (h : key ≠ "") (acc : Option String) :
    ∃ m, maxKeyStep acc key = some m ∧ strLe key m = true := by
  cases acc with
  | none => exact ⟨key, by simp [maxKeyStep, h], by rw [strLe_iff]⟩
  | some a =>
    by_cases hlt : strLt a key = true
    · exact ⟨key, by simp [maxKeyStep, h, hlt], by rw [strLe_iff]⟩
    · refine ⟨a, by simp [maxKeyStep, h, hlt], ?_⟩
      rw [strLe_iff]
      rw [Bool.not_eq_true, strLt_false_iff] at hlt
      exact le_of_not_lt hlt

theorem maxKeyStep_some {acc : Option String} {key m : String}
    (h : maxKeyStep acc key = some m) : m = key ∨ acc = some m := by
  by_cases he : key = ""
  · simp only [maxKeyStep, he, if_pos rfl] at h
    exact Or.inr (by simpa [he] using h)
  · cases acc with
    | none =>
      rw [show maxKeyStep none key = some key by simp [maxKeyStep, he]] at h
      exact Or.inl (Option.some.inj h).symm
    | some a =>
      simp only [maxKeyStep, if_neg he] at h
      by_cases hlt : strLt a key = true
      · rw [if_pos hlt, Option.some.injEq] at h
        exact Or.inl h.symm
      · rw [if_neg hlt] at h
        exact Or.inr h

theorem foldl_maxKey_mono {β : Type} (f : β → String) :
    ∀ (xs : List β) {acc : Option String} {a : String}, acc = some a →
      ∃ m, xs.foldl (fun acc2 x => maxKeyStep acc2 (f x)) acc = some m ∧ strLe a m = true := by
  intro xs
  induction xs with
  | nil => intro acc a h; exact ⟨a, h, by rw [strLe_iff]⟩
  | cons x rest ih =>
    intro acc a h
    obtain ⟨m1, hm1, h1⟩ := maxKeyStep_mono (f x) h
    obtain ⟨m2, hm2, h2⟩ := ih hm1
    rw [List.foldl_cons]
    refine ⟨m2, hm2, ?_⟩
    rw [strLe_iff] at h1 h2 ⊢
    exact le_trans h1 h2

theorem foldl_maxKey_ub {β : Type} (f : β → String) :
    ∀ (xs : List β) (acc : Option String) (x : β), x ∈ xs → f x ≠ "" →
      ∃ m, xs.foldl (fun acc2 x => maxKeyStep acc2 (f x)) acc = some m ∧
        strLe (f x) m = true := by
  intro xs
  induction xs with
  | nil => intro acc x h; cases h
  | cons y rest ih =>
    intro acc x h hne
    rw [List.foldl_cons]
    rcases List.mem_cons.mp h with he | hm
    · subst he
      obtain ⟨m1, hm1, h1⟩ := maxKeyStep_ge hne acc
      obtain ⟨m2, hm2, h2⟩ := foldl_maxKey_mono f rest hm1
      refine ⟨m2, hm2, ?_⟩
      rw [strLe_iff] at h1 h2 ⊢
      exact le_trans h1 h2
    · exact ih _ x hm hne

theorem foldl_maxKey_some {β : Type} (f : β → String) :
    ∀ (xs : List β) (acc : Option String) (m : String),
      xs.foldl (fun acc2 x => maxKeyStep acc2 (f x)) acc = some m →
      (∃ x ∈ xs, m = f x) ∨ acc = some m := by
  intro xs
  induction xs with
  | nil => intro acc m h; exact Or.inr h
  | cons x rest ih =>
    intro acc m h
    rw [List.foldl_cons] at h
    rcases ih _ m h with hx | hacc
    · obtain ⟨x2, hx2, he⟩ := hx
      exact Or.inl ⟨x2, List.mem_cons_of_mem x hx2, he⟩
    · rcases maxKeyStep_some hacc with he | ha
      · exact Or.inl ⟨x, List.mem_cons_self x rest, he⟩
      · exact Or.inr ha

/-! The nested scan of get_latest_trading_day. -/

theorem gltd_outer_mono (frequency : String) :
    ∀ (lines : List JLine) {acc : Option String} {a : String}, acc = some a →
      ∃ m, lines.foldl (fun acc l =>
          l.series.foldl (fun acc2 kv => maxKeyStep acc2 (ltdKey frequency kv.1)) acc) acc
        = some m ∧ strLe a m = true := by
  intro lines
  induction lines with
  | nil => intro acc a h; exact ⟨a, h, by rw [strLe_iff]⟩
  | cons l rest ih =>
    intro acc a h
    obtain ⟨m1, hm1, h1⟩ := foldl_maxKey_mono (fun kv => ltdKey frequency kv.1) l.series h
    obtain ⟨m2, hm2, h2⟩ := ih hm1
    rw [List.foldl_cons]
    refine ⟨m2, hm2, ?_⟩
    rw [strLe_iff] at h1 h2 ⊢
    exact le_trans h1 h2

theorem gltd_foldl_ub (frequency : String) :
    ∀ (lines : List JLine) (acc : Option String) (l : JLine), l ∈ lines →
      ∀ kv ∈ l.series, ltdKey frequency kv.1 ≠ "" →
      ∃ m, lines.foldl (fun acc l =>
          l.series.foldl (fun acc2 kv => maxKeyStep acc2 (ltdKey frequency kv.1)) acc) acc
        = some m ∧ strLe (ltdKey frequency kv.1) m = true := by
  intro lines
  induction lines with
  | nil => intro acc l h; cases h
  | cons l0 rest ih =>
    intro acc l h kv hkv hne
    rw [List.foldl_cons]
    rcases List.mem_cons.mp h with he | hm
    · subst he
      obtain ⟨m1, hm1, h1⟩ :=
        foldl_maxKey_ub (fun kv => ltdKey frequency kv.1) l.series acc kv hkv hne
      obtain ⟨m2, hm2, h2⟩ := gltd_outer_mono frequency rest hm1
      refine ⟨m2, hm2, ?_⟩
      rw [strLe_iff] at h1 h2 ⊢
      exact le_trans h1 h2
    · exact ih _ l hm kv hkv hne

theorem gltd_ub {frequency : String} {lines : List JLine} {mx : String}
    (h : get_latest_trading_day (some lines) frequency = some mx) :
    ∀ l ∈ lines, ∀ kv ∈ l.series, ltdKey frequency kv.1 ≠ "" →
      strLe (ltdKey frequency kv.1) mx = true := by
  intro l hl kv hkv hne
  simp only [get_latest_trading_day] at h
  obtain ⟨m, hm, hle⟩ := gltd_foldl_ub frequency lines none l hl kv hkv hne
  rw [h] at hm
  cases Option.some.inj hm
  exact hle

theorem foldl_maxKey_some_outer {frequency : String} :
    ∀ (lines : List JLine) (acc : Option String) (mx : String),
      lines.foldl (fun acc l =>
          l.series.foldl (fun acc2 kv => maxKeyStep acc2 (ltdKey frequency kv.1)) acc) acc
        = some mx →
      (∃ l ∈ lines, ∃ kv ∈ l.series, mx = ltdKey frequency kv.1) ∨ acc = some mx := by
  intro lines
  induction lines with
  | nil => intro acc mx h; exact Or.inr h
  | cons l0 rest ih =>
    intro acc mx h
    rw [List.foldl_cons] at h
    rcases ih _ mx h with hx | hacc
    · obtain ⟨l2, hl2, kv, hkv, he⟩ := hx
      exact Or.inl ⟨l2, List.mem_cons_of_mem l0 hl2, kv, hkv, he⟩
    · rcases foldl_maxKey_some (fun kv => ltdKey frequency kv.1) l0.series acc mx hacc with
        hx | ha
      · obtain ⟨kv, hkv, he⟩ := hx
        exact Or.inl ⟨l0, List.mem_cons_self l0 rest, kv, hkv, he⟩
      · exact Or.inr ha

theorem gltd_mem {frequency : String} {lines : List JLine} {mx : String}
    (h : get_latest_trading_day (some lines) frequency = some mx) :
    ∃ l ∈ lines, ∃ kv ∈ l.series, mx = ltdKey frequency kv.1 := by
  simp only [get_latest_trading_day] at h
  induction lines with
  | nil => cases h
  | cons l0 rest ih =>
    rw [List.foldl_cons] at h
    by_cases hrest : ∃ l2 ∈ rest, ∃ kv ∈ l2.series, mx = ltdKey frequency kv.1
    · obtain ⟨l2, hl2, kv, hkv, he⟩ := hrest
      exact ⟨l2, List.mem_cons_of_mem l0 hl2, kv, hkv, he⟩
    · have hacc :
          (l0.series.foldl (fun acc2 kv => maxKeyStep acc2 (ltdKey frequency kv.1)) none)
            = some mx := by
        rcases foldl_maxKey_some_outer rest _ mx h with hx | ha
        · exact absurd hx hrest
        · exact ha
      rcases foldl_maxKey_some (fun kv => ltdKey frequency kv.1) l0.series none mx hacc with
        hx | ha
      · obtain ⟨kv, hkv, he⟩ := hx
        exact ⟨l0, List.mem_cons_self l0 rest, kv, hkv, he⟩
      · cases ha

/-! Weekend-skip loops. -/

theorem skipFwd7_spec (z : Int) :
    weekdayZ (skipFwdWeekend 7 z) < 5 ∧ z ≤ skipFwdWeekend 7 z ∧
      skipFwdWeekend 7 z ≤ z + 2 ∧
      ∀ u : Int, z ≤ u → u < skipFwdWeekend 7 z → weekdayZ u ≥ 5 := by
  simp only [skipFwdWeekend, weekdayZ]
  split_ifs <;> refine ⟨by omega, by omega, by omega, fun u h1 h2 => by omega⟩

theorem skipBack7_spec (z : Int) :
    weekdayZ (skipBackWeekend 7 z) < 5 ∧ skipBackWeekend 7 z ≤ z ∧
      z - 2 ≤ skipBackWeekend 7 z ∧
      ∀ u : Int, u ≤ z → skipBackWeekend 7 z < u → weekdayZ u ≥ 5 := by
  simp only [skipBackWeekend, weekdayZ]
  split_ifs <;> refine ⟨by omega, by omega, by omega, fun u h1 h2 => by omega⟩

/-! The parse-filtered maximum of get_yesterday_date_jsonl. -/

theorem prevParsed_foldl_none {input : DateTime} :
    ∀ (keys : List String) (acc : Option DateTime), (∀ k ∈ keys, parseDateTime k = none) →
      keys.foldl (fun acc ts =>
        match parseDateTime ts with
        | none => acc
        | some t =>
          if dtLt t input then
            match acc with
            | none => some t
            | some m => if dtLt m t then some t else some m
          else acc) acc = acc := by
  intro keys
  induction keys with
  | nil => intro acc h; rfl
  | cons k rest ih =>
    intro acc h
    rw [List.foldl_cons]
    have hk : parseDateTime k = none := h k (List.mem_cons_self k rest)
    rw [show (match parseDateTime k with
      | none => acc
      | some t =>
        if dtLt t input then
          match acc with
          | none => some t
          | some m => if dtLt m t then some t else some m
        else acc) = acc by rw [hk]]
    exact ih acc (fun k2 hk2 => h k2 (List.mem_cons_of_mem k hk2))

theorem prevParsed_none {keys : List String} {input : DateTime}
    (h : ∀ k ∈ keys, parseDateTime k = none) : prevParsed keys input = none := by
  simpa [prevParsed] using prevParsed_foldl_none keys none h

/-! The first pass of get_latest_position_jsonl. -/

theorem glp_no_match (d : String) :
    ∀ (recs : List JRec) (acc : Int × List (String × Int)),
      (∀ r ∈ recs, r.date ≠ d) → recs.foldl (glpStep d) acc = acc := by
  intro recs
  induction recs with
  | nil => intro acc h; rfl
  | cons r rest ih =>
    intro acc h
    rw [List.foldl_cons]
    rw [show glpStep d acc r = acc by
      simp [glpStep, h r (List.mem_cons_self r rest)]]
    exact ih acc (fun r2 h2 => h r2 (List.mem_cons_of_mem r h2))

theorem glp_mono (d : String) :
    ∀ (recs : List JRec) (acc : Int × List (String × Int)),
      acc.1 ≤ (recs.foldl (glpStep d) acc).1 := by
  intro recs
  induction recs with
  | nil => intro acc; exact le_refl _
  | cons r rest ih =>
    intro acc
    rw [List.foldl_cons]
    refine le_trans ?_ (ih (glpStep d acc r))
    by_cases h : r.date = d ∧ acc.1 < r.id
    · simp only [glpStep, if_pos h]
      exact le_of_lt h.2
    · simp [glpStep, h]

theorem glp_ub (d : String) :
    ∀ (recs : List JRec) (acc : Int × List (String × Int)) (r : JRec),
      r ∈ recs → r.date = d → r.id ≤ (recs.foldl (glpStep d) acc).1 := by
  intro recs
  induction recs with
  | nil => intro acc r h; cases h
  | cons x rest ih =>
    intro acc r h hd
    rw [List.foldl_cons]
    rcases List.mem_cons.mp h with he | hm
    · subst he
      refine le_trans ?_ (glp_mono d rest (glpStep d acc r))
      by_cases hlt : acc.1 < r.id
      · simp [glpStep, hd, hlt]
      · simp only [glpStep, hd, true_and, if_neg hlt]
        omega
    · exact ih _ r hm hd

theorem glp_provenance (d : String) :
    ∀ (recs : List JRec) (acc : Int × List (String × Int)),
      recs.foldl (glpStep d) acc = acc ∨
      ∃ m ∈ recs, m.date = d ∧ recs.foldl (glpStep d) acc = (m.id, m.positions) := by
  intro recs
  induction recs with
  | nil => intro acc; exact Or.inl rfl
  | cons x rest ih =>
    intro acc
    rw [List.foldl_cons]
    by_cases h : x.date = d ∧ acc.1 < x.id
    · rcases ih (glpStep d acc x) with he | hm
      · rw [he]
        refine Or.inr ⟨x, List.mem_cons_self x rest, h.1, ?_⟩
        simp [glpStep, h]
      · obtain ⟨m, hm2, hd2, he2⟩ := hm
        exact Or.inr ⟨m, List.mem_cons_of_mem x hm2, hd2, he2⟩
    · rw [show glpStep d acc x = acc by simp [glpStep, h]]
      rcases ih acc with he | hm
      · exact Or.inl he
      · obtain ⟨m, hm2, hd2, he2⟩ := hm
        exact Or.inr ⟨m, List.mem_cons_of_mem x hm2, hd2, he2⟩

/-! Order facts for the (date, id)-descending sort key. -/

theorem recKeyGe_total : ∀ a b : JRec, recKeyGe a b ∨ recKeyGe b a := by
  intro a b
  by_cases hd : a.date = b.date
  · rcases le_total a.id b.id with h | h
    · exact Or.inr (Or.inr ⟨hd, h⟩)
    · exact Or.inl (Or.inr ⟨hd.symm, h⟩)
  · rcases lt_trichotomy a.date.data b.date.data with h | h | h
    · exact Or.inr (Or.inl (strLt_iff.mpr h))
    · exact absurd (str_data_inj h) hd
    · exact Or.inl (Or.inl (strLt_iff.mpr h))

theorem recKeyGe_trans : ∀ a b c : JRec, recKeyGe a b → recKeyGe b c → recKeyGe a c := by
  intro a b c hab hbc
  rcases hab with h1 | ⟨h1, h1i⟩ <;> rcases hbc with h2 | ⟨h2, h2i⟩
  · exact Or.inl (strLt_iff.mpr (lt_trans (strLt_iff.mp h2) (strLt_iff.mp h1)))
  · exact Or.inl (h2 ▸ h1)
  · exact Or.inl (h1 ▸ h2)
  · exact Or.inr ⟨h2.trans h1, le_trans h2i h1i⟩

/-- C1: the claim is right and the relational read is wrong.  At a history
with two steps on one date, query_latest_position returns the step_id of
the newest step but the cash and the holdings of the oldest step of that
date: the sold-out symbol reappears and the stale cash wins, because the
row loop merges every step of the date and the oldest rows overwrite.
The journal read and the spec reading agree on the newest snapshot. -/
theorem C1_latest_position_duckdb_merges_steps :
    query_latest_position tblTwoSteps "agent-a" "2025-01-02"
        = ([("600519.SH", 10), ("CASH", 83000)], 1) ∧
    spec_latest_at_or_before histTwoSteps "2025-01-02" = ([("CASH", 100100)], 1) ∧
    get_latest_position_jsonl histTwoSteps "2025-01-02" = ([("CASH", 100100)], 1) ∧
    query_latest_position tblTwoSteps "agent-a" "2025-01-02"
        ≠ spec_latest_at_or_before histTwoSteps "2025-01-02" := by
  decide

/-- C2: the claim is right and the relational read is wrong.  On the same
two-step history, query_today_init_position for the next day returns the
holdings and cash of the older step of the latest date instead of the
newest snapshot; the journal path and the spec reading agree on the
newest snapshot, so the paths are not identical either. -/
theorem C2_init_position_duckdb_merges_steps :
    query_today_init_position tblTwoSteps "2025-01-03" "agent-a"
        = [("600519.SH", 10), ("CASH", 83000)] ∧
    spec_opening_position histTwoSteps "2025-01-03" = [("CASH", 100100)] ∧
    get_today_init_position_jsonl histTwoSteps "2025-01-03" = [("CASH", 100100)] ∧
    query_today_init_position tblTwoSteps "2025-01-03" "agent-a"
        ≠ spec_opening_position histTwoSteps "2025-01-03" := by
  decide

/-- C3 counterexample: the journal append is scoped to records dated at or
before the commit date, so appending at a date before an existing record
reuses id 0 instead of one plus the maximum over the entire history. -/
theorem C3_counterexample_jsonl_id_scoped_to_date :
    jsonl_next_id recsLateFirst "2025-01-05" = 0 ∧
    spec_next_step_id recsLateFirst = 1 ∧
    jsonl_next_id recsLateFirst "2025-01-05" ≠ spec_next_step_id recsLateFirst := by
  decide

/-- C4 counterexample: with the primary reachable and merely empty,
get_all_trading_days does not propagate the empty primary result; it
silently returns the journal days instead. -/
theorem C4_counterexample_empty_primary_falls_back :
    query_all_trading_days [] "cn" = [] ∧
    fa_get_all_trading_days true true true [] (some jrOneBar) "cn" = .ok ["2025-01-02"] ∧
    fa_get_all_trading_days true true true [] (some jrOneBar) "cn" ≠ .ok [] := by
  decide

/-- C5 counterexample: on a daily journal the reimplementation never reads
the stored days (its keys fail the datetime parse) and falls back to
previous-weekday arithmetic, answering 2025-01-09 where the primary
answers the stored 2025-01-06. -/
theorem C5_counterexample_daily_journal_calendar_arithmetic :
    query_previous_trading_day tblTwoDays [] "2025-01-10" "cn" = some "2025-01-06" ∧
    get_yesterday_date_jsonl (some jrTwoDays) "2025-01-10" = some "2025-01-09" ∧
    get_yesterday_date_jsonl (some jrTwoDays) "2025-01-10"
        ≠ query_previous_trading_day tblTwoDays [] "2025-01-10" "cn" := by
  decide

/-- C6 counterexample: the journal path omits a requested symbol whose
line has no bar at the timestamp, while the primary path surfaces the
same symbol as an explicit None entry. -/
theorem C6_counterexample_journal_omits_missing_symbol :
    get_open_prices_jsonl (some jrOneBar) "2025-01-06" ["600519.SH"] = [] ∧
    alLookup (get_open_prices_jsonl (some jrOneBar) "2025-01-06" ["600519.SH"])
        "600519.SH_price" = none ∧
    query_daily_open_prices [] ["600519.SH"] "2025-01-06" "cn"
        = [("600519.SH_price", none)] := by
  decide

/-- C7: the commit always attempts the journal write, attempts the primary
exactly when DuckDB is preferred, and raises exactly when an attempted
primary write and the journal write both fail; a commit that fails in only
one of the two stores returns without raising. -/
theorem C7_commit_attempts_and_raise_condition (preferDuckdb duckdbFails jsonlFails : Bool) :
    "JSONL" ∈ add_position_record_attempts preferDuckdb ∧
    ("DuckDB" ∈ add_position_record_attempts preferDuckdb ↔ preferDuckdb = true) ∧
    (add_position_record_raises preferDuckdb duckdbFails jsonlFails = true ↔
      preferDuckdb = true ∧ duckdbFails = true ∧ jsonlFails = true) ∧
    add_position_record_raises preferDuckdb true false = false ∧
    add_position_record_raises preferDuckdb false true = false := by
  cases preferDuckdb <;> cases duckdbFails <;> cases jsonlFails <;> decide

/-- C8 counterexample: with the ledger tip on Friday 2025-01-03 and bars
through 2025-01-06, auto-resume starts at Saturday 2025-01-04 (one
calendar day after the tip, a day absent from the trading calendar), not
at the next trading day 2025-01-06 the calendar holds. -/
theorem C8_counterexample_daily_start_not_from_calendar :
    calculate_date_range (some jrThreeDays) (some posTipFriday) "daily" ⟨2025, 1, 7⟩
        = some ("2025-01-04", "2025-01-06") ∧
    spec_next_trading_day (get_all_trading_days_jsonl (some jrThreeDays)) "2025-01-03"
        = some "2025-01-06" ∧
    Date.weekday ⟨2025, 1, 4⟩ = 5 ∧
    "2025-01-04" ∉ get_all_trading_days_jsonl (some jrThreeDays) ∧
    (calculate_date_range (some jrThreeDays) (some posTipFriday) "daily" ⟨2025, 1, 7⟩).map
        (fun p => p.1)
      ≠ spec_next_trading_day (get_all_trading_days_jsonl (some jrThreeDays)) "2025-01-03" := by
  decide

/-- C9 counterexample: cancelling a pending run returns False and leaves
the run pending; it is neither cancelled nor marked cancelled. -/
theorem C9_counterexample_pending_run_stays_pending :
    cancel_run runsOnePending "r1" = (false, runsOnePending) ∧
    alLookup (cancel_run runsOnePending "r1").2 "r1" = some ⟨.pending, false, false⟩ := by
  decide

/-- C9 amended: cancel_run never mutates the registry; it returns True
exactly for a run found in RUNNING status that holds a live (not yet
done) task, and returns False for every other run, a PENDING one
included, whose status is left unchanged. -/
theorem C9_cancel_run_amended (runs : List (String × RunEntry)) (run_id : String) :
    (cancel_run runs run_id).2 = runs ∧
    ((cancel_run runs run_id).1 = true ↔
      ∃ r, alLookup runs run_id = some r ∧ r.status = .running ∧ r.hasTask = true ∧
        r.taskDone = false) := by
  rcases h : alLookup runs run_id with _ | r
  · refine ⟨by simp [cancel_run, h], ?_, ?_⟩
    · intro hc
      exfalso
      simp [cancel_run, h] at hc
    · rintro ⟨r, hr, -⟩
      cases hr
  · by_cases hs : r.status = AgentStatus.running
    · have hne : ¬r.status ≠ AgentStatus.running := by simp [hs]
      by_cases ht : (r.hasTask && !r.taskDone) = true
      · have hval : cancel_run runs run_id = (true, runs) := by
          simp [cancel_run, h, hne, ht]
        obtain ⟨h1, h2⟩ : r.hasTask = true ∧ (!r.taskDone) = true := by simpa using ht
        refine ⟨by rw [hval], ?_, fun _ => by rw [hval]⟩
        intro _
        exact ⟨r, rfl, hs, h1, by simpa using h2⟩
      · have hval : cancel_run runs run_id = (false, runs) := by
          simp only [cancel_run, h, if_neg hne, if_neg ht]
        refine ⟨by rw [hval], ?_, ?_⟩
        · intro hc
          rw [hval] at hc
          simp at hc
        · rintro ⟨r2, hr2, -, hht, htd⟩
          obtain rfl := Option.some.inj hr2
          exact absurd (by simp [hht, htd] : (r.hasTask && !r.taskDone) = true) ht
    · have hval : cancel_run runs run_id = (false, runs) := by
        simp only [cancel_run, h, if_pos hs]
      refine ⟨by rw [hval], ?_, ?_⟩
      · intro hc
        rw [hval] at hc
        simp at hc
      · rintro ⟨r2, hr2, hst, -, -⟩
        obtain rfl := Option.some.inj hr2
        exact absurd hst hs

/-- The primary open-price dict is nonempty whenever a symbol is
requested: the missing-symbol loop puts one key per symbol in it. -/
theorem query_daily_open_prices_ne_nil (tbl : List PriceRow) (symbols : List String)
    (date market : String) (h : symbols ≠ []) :
    query_daily_open_prices tbl symbols date market ≠ [] := by
  cases symbols with
  | nil => exact absurd rfl h
  | cons s rest =>
    intro hempty
    have hmem := fillMissing_mem (s :: rest)
      ((List.filter (fun r =>
          decide (r.ts_code ∈ s :: rest) && decide (r.trade_date = date) &&
            decide (r.market = market)) tbl).foldl
        (fun acc r => alInsert acc (r.ts_code ++ "_price") r.opn) []) s
      (List.mem_cons_self s rest)
    rw [show fillMissing (s :: rest)
        ((List.filter (fun r =>
            decide (r.ts_code ∈ s :: rest) && decide (r.trade_date = date) &&
              decide (r.market = market)) tbl).foldl
          (fun acc r => alInsert acc (r.ts_code ++ "_price") r.opn) [])
        = query_daily_open_prices tbl (s :: rest) date market by
      simp [query_daily_open_prices]] at hmem
    rw [hempty] at hmem
    simp [alLookup] at hmem

/-- C4 amended: the journal fallback fires when the primary raises (the
error surfaces instead when fallback is disabled) and also whenever the
primary returns an empty result, which therefore never propagates; the
facade consults nothing else about the primary.  For open prices with a
nonempty symbol list a reachable primary is returned as is, because its
dict always carries one entry per requested symbol. -/
theorem C4_fallback_behaviour (fallbackEnabled : Bool) (tbl : List PriceRow)
    (hourlyTbl : List HourRow) (journal : Option (List JLine)) (market today_date : String)
    (symbols : List String) (hsym : symbols ≠ []) (hdaily : hasChar today_date ' ' = false) :
    (query_all_trading_days tbl market = [] →
      fa_get_all_trading_days true true fallbackEnabled tbl journal market
        = .ok (get_all_trading_days_jsonl journal)) ∧
    (query_all_trading_days tbl market ≠ [] →
      fa_get_all_trading_days true true fallbackEnabled tbl journal market
        = .ok (query_all_trading_days tbl market)) ∧
    fa_get_all_trading_days true false true tbl journal market
      = .ok (get_all_trading_days_jsonl journal) ∧
    fa_get_all_trading_days true false false tbl journal market = .raised ∧
    fa_get_open_prices true true fallbackEnabled tbl hourlyTbl journal today_date symbols
        market
      = .ok (query_daily_open_prices tbl symbols today_date market) := by
  refine ⟨?_, ?_, by simp [fa_get_all_trading_days], by simp [fa_get_all_trading_days], ?_⟩
  · intro h
    simp [fa_get_all_trading_days, h]
  · intro h
    simp [fa_get_all_trading_days, h]
  · have hq := query_daily_open_prices_ne_nil tbl symbols today_date market hsym
    simp [fa_get_open_prices, hdaily, hq]

/-- C4 witness: the amended statement applied to an empty primary store,
a one-bar journal and one requested symbol. -/
theorem C4_fallback_witness :
    (["600519.SH"] ≠ ([] : List String)) ∧ hasChar "2025-01-06" ' ' = false ∧
    ((query_all_trading_days [] "cn" = [] →
      fa_get_all_trading_days true true true [] (some jrOneBar) "cn"
        = .ok (get_all_trading_days_jsonl (some jrOneBar))) ∧
    (query_all_trading_days [] "cn" ≠ [] →
      fa_get_all_trading_days true true true [] (some jrOneBar) "cn"
        = .ok (query_all_trading_days [] "cn")) ∧
    fa_get_all_trading_days true false true [] (some jrOneBar) "cn"
      = .ok (get_all_trading_days_jsonl (some jrOneBar)) ∧
    fa_get_all_trading_days true false false [] (some jrOneBar) "cn" = .raised ∧
    fa_get_open_prices true true true [] [] (some jrOneBar) "2025-01-06" ["600519.SH"]
        "cn"
      = .ok (query_daily_open_prices [] ["600519.SH"] "2025-01-06" "cn")) :=
  ⟨by decide, by decide,
    C4_fallback_behaviour true [] [] (some jrOneBar) "cn" "2025-01-06" ["600519.SH"]
      (by decide) (by decide)⟩

/-- C6 amended: the primary open-price queries surface every requested
symbol (as an explicit None entry when no bar is stored), while the
journal path produces an entry only for a symbol whose journal line holds
a bar dictionary at the requested timestamp and omits every other
requested symbol. -/
theorem C6_open_prices_amended (tbl : List PriceRow) (htbl : List HourRow)
    (symbols : List String) (date market dts : String) (lines : List JLine) :
    (∀ s ∈ symbols,
      (alLookup (query_daily_open_prices tbl symbols date market) (s ++ "_price")).isSome) ∧
    (∀ s ∈ symbols,
      (alLookup (query_hourly_open_prices htbl symbols dts) (s ++ "_price")).isSome) ∧
    (∀ k v, alLookup (get_open_prices_jsonl (some lines) date symbols) k = some v →
      ∃ l ∈ lines, l.symbol ∈ symbols ∧ k = l.symbol ++ "_price" ∧
        ∃ bar, alLookup l.series date = some bar) := by
  refine ⟨?_, ?_, ?_⟩
  · intro s hs
    have hne : symbols ≠ [] := by
      intro he
      rw [he] at hs
      cases hs
    simp only [query_daily_open_prices, if_neg hne]
    exact fillMissing_mem symbols _ s hs
  · intro s hs
    have hne : symbols ≠ [] := by
      intro he
      rw [he] at hs
      cases hs
    simp only [query_hourly_open_prices, if_neg hne]
    exact fillMissing_mem symbols _ s hs
  · intro k v h
    simp only [get_open_prices_jsonl] at h
    rcases gop_foldl_lookup symbols date lines [] k v h with hx | hacc
    · exact hx
    · simp [alLookup] at hacc

/-- C6 witness: the amended statement applied to an empty store, the
one-bar journal and one requested symbol. -/
theorem C6_open_prices_witness :
    (∀ s ∈ ["600519.SH"],
      (alLookup (query_daily_open_prices [] ["600519.SH"] "2025-01-06" "cn")
        (s ++ "_price")).isSome) ∧
    (∀ s ∈ ["600519.SH"],
      (alLookup (query_hourly_open_prices [] ["600519.SH"] "2025-01-06 10:30:00")
        (s ++ "_price")).isSome) ∧
    (∀ k v, alLookup (get_open_prices_jsonl (some jrOneBar) "2025-01-06" ["600519.SH"]) k
        = some v →
      ∃ l ∈ jrOneBar, l.symbol ∈ ["600519.SH"] ∧ k = l.symbol ++ "_price" ∧
        ∃ bar, alLookup l.series "2025-01-06" = some bar) :=
  C6_open_prices_amended [] [] ["600519.SH"] "2025-01-06" "cn" "2025-01-06 10:30:00" jrOneBar

/-- C9 witness: the amended statement applied to the registry holding one
pending run. -/
theorem C9_cancel_run_witness :
    (cancel_run runsOnePending "r1").2 = runsOnePending ∧
    ((cancel_run runsOnePending "r1").1 = true ↔
      ∃ r, alLookup runsOnePending "r1" = some r ∧ r.status = .running ∧ r.hasTask = true ∧
        r.taskDone = false) :=
  C9_cancel_run_amended runsOnePending "r1"

/-- C3 amended: the relational insert derives the new step_id from the
maximum over the entire history of the agent, so it exceeds every
existing step_id of that agent.  The journal append instead derives its
id from the latest-at-or-before read at the commit date; it equals one
plus the maximum history id exactly in the chronological situation the
system maintains, namely when the record of maximal id also carries the
maximal date, every record is dated at or before the commit date, and
snapshots are nonempty with nonnegative ids.  An append dated before an
existing record can reuse an id, as the counterexample shows. -/
theorem C3_step_id_amended (tbl : List PosRow) (sig : String)
    (recs : List JRec) (d : String) (mx : JRec)
    (hmx : mx ∈ recs)
    (hmaxid : ∀ r ∈ recs, r.id ≤ mx.id)
    (hmaxdate : ∀ r ∈ recs, strLe r.date mx.date = true)
    (hle : ∀ r ∈ recs, strLe r.date d = true)
    (hne : ∀ r ∈ recs, r.date ≠ "")
    (hpos : ∀ r ∈ recs, r.positions ≠ [])
    (hid : ∀ r ∈ recs, 0 ≤ r.id) :
    (∀ rw ∈ tbl, rw.agent = sig → rw.step_id < duckdb_next_step_id tbl sig) ∧
    jsonl_next_id recs d = mx.id + 1 ∧
    (∀ r ∈ recs, r.id < jsonl_next_id recs d) := by
  have hduck : ∀ rw ∈ tbl, rw.agent = sig → rw.step_id < duckdb_next_step_id tbl sig := by
    intro rw hrw hag
    have h1 := duckdb_foldl_max_ub sig tbl (-1) rw hrw hag
    simp only [duckdb_next_step_id]
    omega
  have hmain : jsonl_next_id recs d = mx.id + 1 := by
    by_cases hcase : ∃ m ∈ recs, m.date = d
    · obtain ⟨m, hm, hmd⟩ := hcase
      have hub : ∀ r ∈ recs, r.date = d → r.id ≤ (recs.foldl (glpStep d) (-1, [])).1 :=
        fun r hr hrd => glp_ub d recs (-1, []) r hr hrd
      have hst1 : 0 ≤ (recs.foldl (glpStep d) (-1, [])).1 :=
        le_trans (hid m hm) (hub m hm hmd)
      rcases glp_provenance d recs (-1, []) with heq | hprov
      · rw [heq] at hst1
        exact absurd hst1 (by norm_num)
      · obtain ⟨m0, hm0, hd0, he0⟩ := hprov
        have hmxd : mx.date = d := by
          have h1 : strLe m.date mx.date = true := hmaxdate m hm
          have h2 : strLe mx.date d = true := hle mx hmx
          rw [hmd] at h1
          rw [strLe_iff] at h1 h2
          exact str_data_inj (le_antisymm h2 h1)
        have hmxle : mx.id ≤ (recs.foldl (glpStep d) (-1, [])).1 := hub mx hmx hmxd
        rw [he0] at hmxle
        have hm0le : m0.id ≤ mx.id := hmaxid m0 hm0
        simp only [jsonl_next_id, get_latest_position_jsonl]
        rw [he0, if_pos ⟨hid m0 hm0, hpos m0 hm0⟩]
        show m0.id + 1 = mx.id + 1
        omega
    · push_neg at hcase
      have hfold : recs.foldl (glpStep d) (-1, []) = (-1, []) :=
        glp_no_match d recs (-1, []) hcase
      have hfilter : recs.filter (fun doc =>
          decide (doc.date ≠ "") && strLt doc.date d && decide (doc.positions ≠ [])) = recs := by
        apply List.filter_eq_self.mpr
        intro r hr
        have h1 : strLt r.date d = true := strLt_of_strLe_ne (hle r hr) (hcase r hr)
        simp [hne r hr, h1, hpos r hr]
      simp only [jsonl_next_id, get_latest_position_jsonl]
      rw [hfold, if_neg (fun hh => hh.2 rfl), hfilter]
      rcases hsort : List.insertionSort recKeyGe recs with _ | ⟨r0, xs⟩
      · have hp := List.perm_insertionSort recKeyGe recs
        rw [hsort] at hp
        rw [hp.symm.eq_nil] at hmx
        cases hmx
      · obtain ⟨hr0mem, hr0ge⟩ :=
          insertionSort_head_rel recKeyGe recKeyGe_total recKeyGe_trans recs r0 xs hsort
        have h1 : r0.id ≤ mx.id := hmaxid r0 hr0mem
        have h2 : mx.id ≤ r0.id := by
          rcases hr0ge mx hmx with hlt | hconj
          · have h3 : strLe r0.date mx.date = true := hmaxdate r0 hr0mem
            rw [strLt_iff] at hlt
            rw [strLe_iff] at h3
            exact absurd hlt (not_lt.mpr h3)
          · exact hconj.2
        show r0.id + 1 = mx.id + 1
        omega
  refine ⟨hduck, hmain, ?_⟩
  intro r hr
  rw [hmain]
  have h1 := hmaxid r hr
  omega

/-- C3 witness: the amended statement applied to the chronological
two-record journal with the newest record as the maximal one, and to the
two-step positions table. -/
theorem C3_step_id_witness :
    recTip ∈ recsChrono ∧
    ((∀ rw ∈ tblTwoSteps, rw.agent = "agent-a" →
        rw.step_id < duckdb_next_step_id tblTwoSteps "agent-a") ∧
      jsonl_next_id recsChrono "2025-01-03" = recTip.id + 1 ∧
      (∀ r ∈ recsChrono, r.id < jsonl_next_id recsChrono "2025-01-03")) :=
  ⟨by decide,
    C3_step_id_amended tblTwoSteps "agent-a" recsChrono "2025-01-03" recTip (by decide)
      (by decide) (by decide) (by decide) (by decide) (by decide) (by decide)⟩

/-- C5 amended: the primary query returns exactly the maximum stored
timestamp strictly below the input at the daily granularity, and none
when nothing earlier is stored.  The journal reimplementation does not
share these semantics: its key scan parses keys only in the datetime
format, so on a daily journal, whose keys are plain dates, every key is
skipped and the function always answers with previous-weekday calendar
arithmetic instead of a stored day; the weekday loop lands on the nearest
earlier non-weekend day number. -/
theorem C5_previous_day_amended (daily : List PriceRow) (today market : String)
    (lines : List JLine) (d : Date)
    (hkeys : ∀ k ∈ gydCollect lines, parseDateTime k = none)
    (hne : gydCollect lines ≠ []) (hdaily : hasChar today ' ' = false) :
    (∀ m, query_previous_trading_day daily [] today market = some m →
      (∃ r ∈ daily, r.market = market ∧ r.trade_date = m) ∧ strLt m today = true ∧
        ∀ r ∈ daily, r.market = market → strLt r.trade_date today = true →
          strLe r.trade_date m = true) ∧
    (query_previous_trading_day daily [] today market = none →
      ∀ r ∈ daily, r.market = market → strLt r.trade_date today = false) ∧
    gydDaily (some lines) d = formatDate (prevWeekdayDate d) ∧
    weekdayZ (skipBackWeekend 7 (daysFromCivil d - 1)) < 5 ∧
    (∀ u : Int, u ≤ daysFromCivil d - 1 →
      skipBackWeekend 7 (daysFromCivil d - 1) < u → weekdayZ u ≥ 5) := by
  refine ⟨?_, ?_, ?_, (skipBack7_spec _).1, (skipBack7_spec _).2.2.2⟩
  · intro m h
    simp only [query_previous_trading_day, hdaily, Bool.false_eq_true, if_false] at h
    refine ⟨?_, ?_, ?_⟩
    · have hmem := maxStr?_mem h
      obtain ⟨r, hrf, hre⟩ := List.mem_map.mp hmem
      have hrd := List.mem_filter.mp hrf
      obtain ⟨h1, h2⟩ : strLt r.trade_date today = true ∧ r.market = market := by
        simpa using hrd.2
      exact ⟨r, hrd.1, h2, hre⟩
    · have hmem := maxStr?_mem h
      obtain ⟨r, hrf, hre⟩ := List.mem_map.mp hmem
      have hrd := List.mem_filter.mp hrf
      obtain ⟨h1, h2⟩ : strLt r.trade_date today = true ∧ r.market = market := by
        simpa using hrd.2
      rw [← hre]
      exact h1
    · intro r hr hmk hlt
      refine maxStr?_ub h ?_
      refine List.mem_map.mpr ⟨r, ?_, rfl⟩
      refine List.mem_filter.mpr ⟨hr, ?_⟩
      simp [hlt, hmk]
  · intro h r hr hmk
    by_contra hlt
    rw [Bool.not_eq_false] at hlt
    simp only [query_previous_trading_day, hdaily, Bool.false_eq_true, if_false] at h
    have he := maxStr?_nil_of_none h
    have : r.trade_date ∈ (List.filter (fun r =>
        strLt r.trade_date today && decide (r.market = market)) daily).map
          (fun r => r.trade_date) := by
      refine List.mem_map.mpr ⟨r, ?_, rfl⟩
      refine List.mem_filter.mpr ⟨hr, ?_⟩
      simp [hlt, hmk]
    rw [he] at this
    cases this
  · simp only [gydDaily, if_neg hne, prevParsed_none hkeys]

/-- C5 witness: the amended statement applied to the two-day store and
journal at Friday 2025-01-10. -/
theorem C5_previous_day_witness :
    (∀ k ∈ gydCollect jrTwoDays, parseDateTime k = none) ∧
    gydCollect jrTwoDays ≠ [] ∧ hasChar "2025-01-10" ' ' = false ∧
    ((∀ m, query_previous_trading_day tblTwoDays [] "2025-01-10" "cn" = some m →
      (∃ r ∈ tblTwoDays, r.market = "cn" ∧ r.trade_date = m) ∧
        strLt m "2025-01-10" = true ∧
        ∀ r ∈ tblTwoDays, r.market = "cn" → strLt r.trade_date "2025-01-10" = true →
          strLe r.trade_date m = true) ∧
    (query_previous_trading_day tblTwoDays [] "2025-01-10" "cn" = none →
      ∀ r ∈ tblTwoDays, r.market = "cn" → strLt r.trade_date "2025-01-10" = false) ∧
    gydDaily (some jrTwoDays) ⟨2025, 1, 10⟩ = formatDate (prevWeekdayDate ⟨2025, 1, 10⟩) ∧
    weekdayZ (skipBackWeekend 7 (daysFromCivil ⟨2025, 1, 10⟩ - 1)) < 5 ∧
    (∀ u : Int, u ≤ daysFromCivil ⟨2025, 1, 10⟩ - 1 →
      skipBackWeekend 7 (daysFromCivil ⟨2025, 1, 10⟩ - 1) < u → weekdayZ u ≥ 5)) :=
  ⟨by decide, by decide, by decide,
    C5_previous_day_amended tblTwoDays "2025-01-10" "cn" jrTwoDays ⟨2025, 1, 10⟩
      (by decide) (by decide) (by decide)⟩

/-- C8 amended: with an existing daily ledger tip, auto-resume starts at
the next calendar day after the tip, computed by date arithmetic without
consulting the trading calendar, so the start can name a weekend day the
calendar does not hold (see the counterexample).  The hourly path steps
to the next entry of the fixed sequence within the day and after 15:00
rolls over to 10:30 of the nearest following non-weekend day.  The end of
the range is the maximum timestamp found in the market journal. -/
theorem C8_auto_resume_amended (journal : Option (List JLine)) (posfile : Option (List JRec))
    (now : Date) (lp : String) (dd : Date) (freq : String) (lines : List JLine) (mx : String)
    (hlp : get_latest_position_date posfile "daily" = some lp)
    (hparse : parseDate lp = some dd)
    (hmax : get_latest_trading_day (some lines) freq = some mx) :
    (∃ e, calculate_date_range journal posfile "daily" now
        = some (formatDate (addDays dd 1), e)) ∧
    nextWeekdayDate dd = civilFromDays (skipFwdWeekend 7 (daysFromCivil dd + 1)) ∧
    weekdayZ (skipFwdWeekend 7 (daysFromCivil dd + 1)) < 5 ∧
    (∀ u : Int, daysFromCivil dd + 1 ≤ u → u < skipFwdWeekend 7 (daysFromCivil dd + 1) →
      weekdayZ u ≥ 5) ∧
    (∃ l ∈ lines, ∃ kv ∈ l.series, mx = ltdKey freq kv.1) ∧
    (∀ l ∈ lines, ∀ kv ∈ l.series, ltdKey freq kv.1 ≠ "" →
      strLe (ltdKey freq kv.1) mx = true) ∧
    get_next_hourly_timestamp "2025-01-03 09:00:00" = some "2025-01-03 10:30:00" ∧
    get_next_hourly_timestamp "2025-01-03 10:30:00" = some "2025-01-03 11:30:00" ∧
    get_next_hourly_timestamp "2025-01-03 11:30:00" = some "2025-01-03 14:00:00" ∧
    get_next_hourly_timestamp "2025-01-03 14:00:00" = some "2025-01-03 15:00:00" ∧
    get_next_hourly_timestamp "2025-01-03 15:00:00" = some "2025-01-06 10:30:00" := by
  have hne : ¬("daily" : String) = "hourly" := by decide
  refine ⟨?_, rfl, (skipFwd7_spec _).1, (skipFwd7_spec _).2.2.2, gltd_mem hmax,
    gltd_ub hmax, by decide, by decide, by decide, by decide, by decide⟩
  cases hend : get_latest_trading_day journal "daily" with
  | none =>
    refine ⟨formatDate now, ?_⟩
    simp only [calculate_date_range, hend, hlp, hparse, if_neg hne]
  | some e =>
    refine ⟨e, ?_⟩
    simp only [calculate_date_range, hend, hlp, hparse, if_neg hne]

/-- C8 witness: the amended statement applied to the three-day journal
with the ledger tip on Friday 2025-01-03. -/
theorem C8_auto_resume_witness :
    get_latest_position_date (some posTipFriday) "daily" = some "2025-01-03" ∧
    parseDate "2025-01-03" = some ⟨2025, 1, 3⟩ ∧
    get_latest_trading_day (some jrThreeDays) "daily" = some "2025-01-06" ∧
    ((∃ e, calculate_date_range (some jrThreeDays) (some posTipFriday) "daily" ⟨2025, 1, 7⟩
        = some (formatDate (addDays ⟨2025, 1, 3⟩ 1), e)) ∧
    nextWeekdayDate ⟨2025, 1, 3⟩
        = civilFromDays (skipFwdWeekend 7 (daysFromCivil ⟨2025, 1, 3⟩ + 1)) ∧
    weekdayZ (skipFwdWeekend 7 (daysFromCivil ⟨2025, 1, 3⟩ + 1)) < 5 ∧
    (∀ u : Int, daysFromCivil ⟨2025, 1, 3⟩ + 1 ≤ u →
      u < skipFwdWeekend 7 (daysFromCivil ⟨2025, 1, 3⟩ + 1) → weekdayZ u ≥ 5) ∧
    (∃ l ∈ jrThreeDays, ∃ kv ∈ l.series, "2025-01-06" = ltdKey "daily" kv.1) ∧
    (∀ l ∈ jrThreeDays, ∀ kv ∈ l.series, ltdKey "daily" kv.1 ≠ "" →
      strLe (ltdKey "daily" kv.1) "2025-01-06" = true) ∧
    get_next_hourly_timestamp "2025-01-03 09:00:00" = some "2025-01-03 10:30:00" ∧
    get_next_hourly_timestamp "2025-01-03 10:30:00" = some "2025-01-03 11:30:00" ∧
    get_next_hourly_timestamp "2025-01-03 11:30:00" = some "2025-01-03 14:00:00" ∧
    get_next_hourly_timestamp "2025-01-03 14:00:00" = some "2025-01-03 15:00:00" ∧
    get_next_hourly_timestamp "2025-01-03 15:00:00" = some "2025-01-06 10:30:00") :=
  ⟨by decide, by decide, by decide,
    C8_auto_resume_amended (some jrThreeDays) (some posTipFriday) ⟨2025, 1, 7⟩
      "2025-01-03" ⟨2025, 1, 3⟩ "daily" jrThreeDays "2025-01-06" (by decide) (by decide)
      (by decide)⟩

/-- C10: every date entry of the Time Series object built for one symbol
group carries the full five bar fields, except the entry at the group
maximum date, which carries only the buy price, so a journal read of the
newest bar never sees high, low, close or volume; and every row date
appears in the object.  The injectivity hypothesis says the
YYYYMMDD-to-dashed reformat does not alias another row date with the
latest one, which holds for well-formed eight-digit dates. -/
theorem C10_merge_latest_date_open_only (rows : List CsvRow)
    (hinj : ∀ r ∈ rows, fmtYmd r.trade_date = fmtYmd (csvLatestDate rows) →
      r.trade_date = csvLatestDate rows) :
    (∀ k bar, alLookup (convert_time_series rows) k = some bar →
      (k = fmtYmd (csvLatestDate rows) → bar.map Prod.fst = ["1. buy price"]) ∧
      (k ≠ fmtYmd (csvLatestDate rows) →
        bar.map Prod.fst =
          ["1. buy price", "2. high", "3. low", "4. sell price", "5. volume"])) ∧
    (∀ r ∈ rows, (alLookup (convert_time_series rows) (fmtYmd r.trade_date)).isSome) := by
  constructor
  · intro k bar h
    simp only [convert_time_series] at h
    rcases foldl_alInsert_lookup (fun r => fmtYmd r.trade_date)
        (fun r => csvBar (decide (r.trade_date = csvLatestDate rows)) r)
        (List.insertionSort csvDateLe rows) [] k bar h with hx | hacc
    · obtain ⟨r, hrs, hk, hv⟩ := hx
      have hr : r ∈ rows := (List.perm_insertionSort csvDateLe rows).subset hrs
      by_cases hl : r.trade_date = csvLatestDate rows
      · constructor
        · intro _
          rw [← hv]
          simp [csvBar, hl]
        · intro hkne
          have hke : k = fmtYmd (csvLatestDate rows) := by rw [← hk, hl]
          exact absurd hke hkne
      · constructor
        · intro hke
          have h2 : fmtYmd r.trade_date = fmtYmd (csvLatestDate rows) := by rw [hk, hke]
          exact absurd (hinj r hr h2) hl
        · intro _
          rw [← hv]
          simp [csvBar, hl]
    · simp [alLookup] at hacc
  · intro r hr
    simp only [convert_time_series]
    exact foldl_alInsert_mem (fun r => fmtYmd r.trade_date)
      (fun r => csvBar (decide (r.trade_date = csvLatestDate rows)) r)
      (List.insertionSort csvDateLe rows) []
      r ((List.perm_insertionSort csvDateLe rows).mem_iff.mpr hr)

/-- C10 witness: the statement applied to the two-row symbol group. -/
theorem C10_merge_witness :
    (∀ r ∈ rowsTwoDays, fmtYmd r.trade_date = fmtYmd (csvLatestDate rowsTwoDays) →
      r.trade_date = csvLatestDate rowsTwoDays) ∧
    ((∀ k bar, alLookup (convert_time_series rowsTwoDays) k = some bar →
      (k = fmtYmd (csvLatestDate rowsTwoDays) → bar.map Prod.fst = ["1. buy price"]) ∧
      (k ≠ fmtYmd (csvLatestDate rowsTwoDays) →
        bar.map Prod.fst =
          ["1. buy price", "2. high", "3. low", "4. sell price", "5. volume"])) ∧
    (∀ r ∈ rowsTwoDays, (alLookup (convert_time_series rowsTwoDays) (fmtYmd r.trade_date)).isSome)) :=
  ⟨by decide, C10_merge_latest_date_open_only rowsTwoDays (by decide)⟩

end AITrader
